import Mathlib

/-!
# Separate-chaining hash table (`MyHashTable.h`)

A shallow embedding of the class template `MyHashTable<K, V>`:

* `vector<list<KeyValue>> table` is a list of buckets, each bucket a list of entries;
* `size_t numElements` is a natural number, with `++` and `--` taken modulo `2 ^ 64`;
* `std::hash<K>` is a parameter `hash : K → Nat`, `operator==` on keys is decidable equality;
* a modulus by zero in `getBucketIndex` and an unchecked `table[index]` outside the vector
  are the two faults an operation can run into; they are results of type `Except Fault`;
* the pointer returned by `retrieve` is modelled by the value it points to, `nullptr` by `none`.
-/

namespace HashTable

/-- Width in bits of `size_t`. -/
def SIZE_BITS : Nat := 64

/-- Number of values of `size_t`: arithmetic on `numElements` is modulo this number. -/
def SIZE_MOD : Nat := 2 ^ SIZE_BITS

/-- The undefined behaviours an operation of the table can reach. -/
inductive Fault where
  | modByZero
  | outOfRange
  deriving DecidableEq, Repr

/-- The struct `KeyValue` of the class. -/
structure KeyValue (K V : Type) where
  key : K
  value : V
  deriving DecidableEq, Repr

/-- The data members of `MyHashTable<K, V>`. -/
structure MyHashTable (K V : Type) where
  table : List (List (KeyValue K V))
  numElements : Nat
  deriving DecidableEq, Repr

variable {K V : Type} [DecidableEq K]

/-- Constructor `MyHashTable(size_t size) : table(size), numElements(0)`. -/
def MyHashTable.new (size : Nat) : MyHashTable K V :=
  { table := List.replicate size [], numElements := 0 }

/-- Default argument of the constructor. -/
def DEFAULT_SIZE : Nat := 101

/-- `getBucketIndex`: `std::hash<K>()(key) % table.size()`. -/
def getBucketIndex (hash : K → Nat) (t : MyHashTable K V) (key : K) : Except Fault Nat :=
  if t.table.length = 0 then Except.error Fault.modByZero
  else Except.ok (hash key % t.table.length)

/-- Unchecked access `table[index]`. -/
def bucketAt (t : MyHashTable K V) (index : Nat) : Except Fault (List (KeyValue K V)) :=
  match t.table[index]? with
  | some bucket => Except.ok bucket
  | none => Except.error Fault.outOfRange

/-- The loop of `insert`: overwrite the value of the first entry whose key matches;
`none` when the loop ends without a match. -/
def updateScan (key : K) (value : V) : List (KeyValue K V) → Option (List (KeyValue K V))
  | [] => none
  | kv :: rest =>
    if kv.key = key then some ({ kv with value := value } :: rest)
    else match updateScan key value rest with
      | some rest' => some (kv :: rest')
      | none => none

/-- The loop of `retrieve`: the value of the first entry whose key matches. -/
def findValue (key : K) : List (KeyValue K V) → Option V
  | [] => none
  | kv :: rest => if kv.key = key then some kv.value else findValue key rest

/-- The loop of `remove`: erase the first entry whose key matches;
`none` when the loop ends without a match. -/
def eraseScan (key : K) : List (KeyValue K V) → Option (List (KeyValue K V))
  | [] => none
  | kv :: rest =>
    if kv.key = key then some rest
    else match eraseScan key rest with
      | some rest' => some (kv :: rest')
      | none => none

/-- Method `insert(key, value)`. -/
def insert (hash : K → Nat) (t : MyHashTable K V) (key : K) (value : V) :
    Except Fault (MyHashTable K V) :=
  match getBucketIndex hash t key with
  | Except.error e => Except.error e
  | Except.ok index =>
    match bucketAt t index with
    | Except.error e => Except.error e
    | Except.ok bucket =>
      match updateScan key value bucket with
      | some bucket' => Except.ok { t with table := t.table.set index bucket' }
      | none =>
        Except.ok { table := t.table.set index (bucket ++ [KeyValue.mk key value]),
                    numElements := (t.numElements + 1) % SIZE_MOD }

/-- Method `retrieve(key)`. -/
def retrieve (hash : K → Nat) (t : MyHashTable K V) (key : K) : Except Fault (Option V) :=
  match getBucketIndex hash t key with
  | Except.error e => Except.error e
  | Except.ok index =>
    match bucketAt t index with
    | Except.error e => Except.error e
    | Except.ok bucket => Except.ok (findValue key bucket)

/-- Method `remove(key)`: the returned flag and the table after the call. -/
def remove (hash : K → Nat) (t : MyHashTable K V) (key : K) :
    Except Fault (Bool × MyHashTable K V) :=
  match getBucketIndex hash t key with
  | Except.error e => Except.error e
  | Except.ok index =>
    match bucketAt t index with
    | Except.error e => Except.error e
    | Except.ok bucket =>
      match eraseScan key bucket with
      | some bucket' =>
        Except.ok (true, { table := t.table.set index bucket',
                           numElements := (t.numElements + SIZE_MOD - 1) % SIZE_MOD })
      | none => Except.ok (false, t)

/-- Method `size()`. -/
abbrev MyHashTable.size (t : MyHashTable K V) : Nat := t.numElements

/-- Method `bucketCount()`. -/
abbrev MyHashTable.bucketCount (t : MyHashTable K V) : Nat := t.table.length

/-- A call that mutates the table. -/
inductive Op (K V : Type) where
  | insert (key : K) (value : V)
  | remove (key : K)
  deriving DecidableEq, Repr

/-- Perform one mutating call, keeping the table after it. -/
def applyOp (hash : K → Nat) (t : MyHashTable K V) : Op K V → Except Fault (MyHashTable K V)
  | Op.insert key value => insert hash t key value
  | Op.remove key =>
    match remove hash t key with
    | Except.error e => Except.error e
    | Except.ok (_, t') => Except.ok t'

/-- Perform a finite sequence of mutating calls from left to right. -/
def applyOps (hash : K → Nat) : MyHashTable K V → List (Op K V) → Except Fault (MyHashTable K V)
  | t, [] => Except.ok t
  | t, op :: ops =>
    match applyOp hash t op with
    | Except.error e => Except.error e
    | Except.ok t' => applyOps hash t' ops

/-- Insert the pairs of a list one after another. -/
def insertAll (hash : K → Nat) : MyHashTable K V → List (K × V) → Except Fault (MyHashTable K V)
  | t, [] => Except.ok t
  | t, (key, value) :: rest =>
    match insert hash t key value with
    | Except.error e => Except.error e
    | Except.ok t' => insertAll hash t' rest

/-- States reached from a freshly constructed table with at least one bucket by a finite
sequence of `insert` and `remove` calls. -/
def Reachable (hash : K → Nat) (t : MyHashTable K V) : Prop :=
  ∃ (n : Nat) (ops : List (Op K V)), 1 ≤ n ∧ applyOps hash (MyHashTable.new n) ops = Except.ok t

/-- Sum of the lengths of all buckets. -/
def totalEntries (t : MyHashTable K V) : Nat := (t.table.map List.length).sum

/-- All entries with a given key, over all buckets taken together. -/
def entriesWithKey (t : MyHashTable K V) (key : K) : List (KeyValue K V) :=
  t.table.flatten.filter (fun kv => decide (kv.key = key))

/-- The invariant kept by `insert` and `remove`. -/
structure WF (hash : K → Nat) (t : MyHashTable K V) : Prop where
  pos : 1 ≤ t.table.length
  placed : ∀ (i : Nat) (b : List (KeyValue K V)), t.table[i]? = some b →
    ∀ kv ∈ b, hash kv.key % t.table.length = i
  nodup : ∀ b ∈ t.table, (b.map KeyValue.key).Nodup
  count : t.numElements = totalEntries t % SIZE_MOD

/-- Constructor called without an argument: `size` takes its default value. -/
def MyHashTable.newDefault : MyHashTable K V := MyHashTable.new DEFAULT_SIZE

/-! ## Reference finite map

The reference the table is compared with: an association list holding at most one pair
per key, where insert sets the key to the value and remove erases the key. -/

/-- Lookup of a key in the reference map. -/
def refLookup : List (K × V) → K → Option V
  | [], _ => none
  | (k', v) :: rest, k => if k' = k then some v else refLookup rest k

/-- Erase a key from the reference map. -/
def refErase (m : List (K × V)) (k : K) : List (K × V) :=
  m.filter (fun p => decide (p.1 ≠ k))

/-- Set a key to a value in the reference map. -/
def refSet (m : List (K × V)) (k : K) (v : V) : List (K × V) :=
  (k, v) :: refErase m k

/-- One call on the reference map. -/
def refStep (m : List (K × V)) : Op K V → List (K × V)
  | Op.insert k v => refSet m k v
  | Op.remove k => refErase m k

/-- A sequence of calls on the reference map, from left to right. -/
def refRun : List (K × V) → List (Op K V) → List (K × V)
  | m, [] => m
  | m, op :: ops => refRun (refStep m op) ops

/-- Number of keys of the reference map. -/
def refSize (m : List (K × V)) : Nat := m.length

/-- Whether a key is in the reference map. -/
def refContains (m : List (K × V)) (k : K) : Bool := (refLookup m k).isSome

/-- The relation between a table and the reference map that every call keeps. -/
structure Sim (hash : K → Nat) (t : MyHashTable K V) (m : List (K × V)) : Prop where
  wf : WF hash t
  keys : (m.map Prod.fst).Nodup
  lookup : ∀ k, retrieve hash t k = Except.ok (refLookup m k)
  entries : totalEntries t = refSize m

/-- A table of four buckets with the identity hash after `insert(5, "b")`. -/
def exampleTable : MyHashTable Nat String :=
  { table := [[], [KeyValue.mk 5 "b"], [], []], numElements := 1 }

/-! ## The three loops on one bucket -/

section Bucket

theorem updateScan_eq_none_iff (k : K) (v : V) (b : List (KeyValue K V)) :
    updateScan k v b = none ↔ ∀ kv ∈ b, kv.key ≠ k := by
  induction b with
  | nil => simp [updateScan]
  | cons kv rest ih =>
    by_cases hk : kv.key = k
    · simp [updateScan, hk]
    · cases hu : updateScan k v rest <;> simp [updateScan, hk, hu] <;> simpa [hu] using ih

theorem findValue_eq_none_iff (k : K) (b : List (KeyValue K V)) :
    findValue k b = none ↔ ∀ kv ∈ b, kv.key ≠ k := by
  induction b with
  | nil => simp [findValue]
  | cons kv rest ih =>
    by_cases hk : kv.key = k
    · simp [findValue, hk]
    · simp [findValue, hk, ih]

theorem eraseScan_eq_none_iff (k : K) (b : List (KeyValue K V)) :
    eraseScan k b = none ↔ ∀ kv ∈ b, kv.key ≠ k := by
  induction b with
  | nil => simp [eraseScan]
  | cons kv rest ih =>
    by_cases hk : kv.key = k
    · simp [eraseScan, hk]
    · cases hu : eraseScan k rest <;> simp [eraseScan, hk, hu] <;> simpa [hu] using ih

theorem findValue_updateScan (k : K) (v : V) :
    ∀ (b b' : List (KeyValue K V)), updateScan k v b = some b' → findValue k b' = some v := by
  intro b
  induction b with
  | nil => intro b' h; simp [updateScan] at h
  | cons kv rest ih =>
    intro b' h
    by_cases hk : kv.key = k
    · simp [updateScan, hk] at h
      subst h
      simp [findValue, hk]
    · cases hu : updateScan k v rest with
      | none => simp [updateScan, hk, hu] at h
      | some r =>
        simp [updateScan, hk, hu] at h
        subst h
        simp [findValue, hk, ih r hu]

theorem findValue_append_new (k : K) (v : V) (b : List (KeyValue K V))
    (h : ∀ kv ∈ b, kv.key ≠ k) : findValue k (b ++ [KeyValue.mk k v]) = some v := by
  induction b with
  | nil => simp [findValue]
  | cons kv rest ih =>
    have hk : kv.key ≠ k := h kv (List.mem_cons_self _ _)
    have hr : ∀ x ∈ rest, x.key ≠ k := fun x hx => h x (List.mem_cons_of_mem _ hx)
    simp [findValue, hk, ih hr]

theorem findValue_updateScan_ne (k1 k2 : K) (v : V) (hne : k1 ≠ k2) :
    ∀ (b b' : List (KeyValue K V)), updateScan k1 v b = some b' →
      findValue k2 b' = findValue k2 b := by
  intro b
  induction b with
  | nil => intro b' h; simp [updateScan] at h
  | cons kv rest ih =>
    intro b' h
    by_cases hk : kv.key = k1
    · simp [updateScan, hk] at h
      subst h
      simp [findValue, hk, hne]
    · cases hu : updateScan k1 v rest with
      | none => simp [updateScan, hk, hu] at h
      | some r =>
        simp [updateScan, hk, hu] at h
        subst h
        simp [findValue, ih r hu]

theorem findValue_append_ne (k1 k2 : K) (v : V) (hne : k1 ≠ k2) (b : List (KeyValue K V)) :
    findValue k2 (b ++ [KeyValue.mk k1 v]) = findValue k2 b := by
  induction b with
  | nil => simp [findValue, hne]
  | cons kv rest ih => simp [findValue, ih]

theorem findValue_eraseScan_ne (k1 k2 : K) (hne : k1 ≠ k2) :
    ∀ (b b' : List (KeyValue K V)), eraseScan k1 b = some b' →
      findValue k2 b' = findValue k2 b := by
  intro b
  induction b with
  | nil => intro b' h; simp [eraseScan] at h
  | cons kv rest ih =>
    intro b' h
    by_cases hk : kv.key = k1
    · simp [eraseScan, hk] at h
      subst h
      simp [findValue, hk, hne]
    · cases hu : eraseScan k1 rest with
      | none => simp [eraseScan, hk, hu] at h
      | some r =>
        simp [eraseScan, hk, hu] at h
        subst h
        simp [findValue, ih r hu]

theorem keys_updateScan (k : K) (v : V) :
    ∀ (b b' : List (KeyValue K V)), updateScan k v b = some b' →
      b'.map KeyValue.key = b.map KeyValue.key := by
  intro b
  induction b with
  | nil => intro b' h; simp [updateScan] at h
  | cons kv rest ih =>
    intro b' h
    by_cases hk : kv.key = k
    · simp [updateScan, hk] at h
      subst h
      simp [hk]
    · cases hu : updateScan k v rest with
      | none => simp [updateScan, hk, hu] at h
      | some r =>
        simp [updateScan, hk, hu] at h
        subst h
        simp [ih r hu]

theorem length_updateScan (k : K) (v : V) (b b' : List (KeyValue K V))
    (h : updateScan k v b = some b') : b'.length = b.length := by
  have := congrArg List.length (keys_updateScan k v b b' h)
  simpa using this

theorem keys_eraseScan (k : K) :
    ∀ (b b' : List (KeyValue K V)), eraseScan k b = some b' →
      b'.map KeyValue.key = (b.map KeyValue.key).erase k := by
  intro b
  induction b with
  | nil => intro b' h; simp [eraseScan] at h
  | cons kv rest ih =>
    intro b' h
    by_cases hk : kv.key = k
    · simp [eraseScan, hk] at h
      subst h
      simp [hk]
    · cases hu : eraseScan k rest with
      | none => simp [eraseScan, hk, hu] at h
      | some r =>
        simp [eraseScan, hk, hu] at h
        subst h
        simp [ih r hu, List.erase_cons_tail, hk]

theorem length_eraseScan (k : K) :
    ∀ (b b' : List (KeyValue K V)), eraseScan k b = some b' → b'.length + 1 = b.length := by
  intro b
  induction b with
  | nil => intro b' h; simp [eraseScan] at h
  | cons kv rest ih =>
    intro b' h
    by_cases hk : kv.key = k
    · simp [eraseScan, hk] at h
      subst h
      simp
    · cases hu : eraseScan k rest with
      | none => simp [eraseScan, hk, hu] at h
      | some r =>
        simp [eraseScan, hk, hu] at h
        subst h
        simp [ih r hu]

theorem mem_of_updateScan (k : K) (v : V) (b b' : List (KeyValue K V))
    (h : updateScan k v b = some b') (kv : KeyValue K V) (hkv : kv ∈ b') :
    kv.key ∈ b.map KeyValue.key := by
  rw [← keys_updateScan k v b b' h]
  exact List.mem_map_of_mem _ hkv

theorem mem_of_eraseScan (k : K) :
    ∀ (b b' : List (KeyValue K V)), eraseScan k b = some b' → ∀ kv ∈ b', kv ∈ b := by
  intro b
  induction b with
  | nil => intro b' h; simp [eraseScan] at h
  | cons kv rest ih =>
    intro b' h x hx
    by_cases hk : kv.key = k
    · simp [eraseScan, hk] at h
      subst h
      exact List.mem_cons_of_mem _ hx
    · cases hu : eraseScan k rest with
      | none => simp [eraseScan, hk, hu] at h
      | some r =>
        simp [eraseScan, hk, hu] at h
        subst h
        rcases List.mem_cons.mp hx with rfl | hx
        · exact List.mem_cons_self _ _
        · exact List.mem_cons_of_mem _ (ih r hu x hx)

theorem findValue_eraseScan_self (k : K) (b b' : List (KeyValue K V))
    (hnd : (b.map KeyValue.key).Nodup) (h : eraseScan k b = some b') :
    findValue k b' = none := by
  rw [findValue_eq_none_iff]
  intro kv hkv hk
  have hmem : kv.key ∈ b'.map KeyValue.key := List.mem_map_of_mem _ hkv
  rw [keys_eraseScan k b b' h, hk] at hmem
  exact (List.Nodup.not_mem_erase hnd) hmem

theorem eraseScan_split (k : K) :
    ∀ (b b' : List (KeyValue K V)), eraseScan k b = some b' →
      ∃ pre kv post, b = pre ++ kv :: post ∧ kv.key = k ∧ (∀ x ∈ pre, x.key ≠ k) ∧
        b' = pre ++ post := by
  intro b
  induction b with
  | nil => intro b' h; simp [eraseScan] at h
  | cons kv rest ih =>
    intro b' h
    by_cases hk : kv.key = k
    · simp [eraseScan, hk] at h
      exact ⟨[], kv, rest, rfl, hk, by simp, by simpa using h.symm⟩
    · cases hu : eraseScan k rest with
      | none => simp [eraseScan, hk, hu] at h
      | some r =>
        simp [eraseScan, hk, hu] at h
        obtain ⟨pre, x, post, hb, hx, hpre, hr⟩ := ih r hu
        refine ⟨kv :: pre, x, post, by rw [hb]; rfl, hx, ?_, by rw [← h, hr]; rfl⟩
        intro y hy
        rcases List.mem_cons.mp hy with rfl | hy
        · exact hk
        · exact hpre y hy

theorem updateScan_split (k : K) (v : V) :
    ∀ (b b' : List (KeyValue K V)), updateScan k v b = some b' →
      ∃ pre kv post, b = pre ++ kv :: post ∧ kv.key = k ∧ (∀ x ∈ pre, x.key ≠ k) ∧
        b' = pre ++ KeyValue.mk k v :: post := by
  intro b
  induction b with
  | nil => intro b' h; simp [updateScan] at h
  | cons kv rest ih =>
    intro b' h
    by_cases hk : kv.key = k
    · simp [updateScan, hk] at h
      exact ⟨[], kv, rest, rfl, hk, by simp, by simpa using h.symm⟩
    · cases hu : updateScan k v rest with
      | none => simp [updateScan, hk, hu] at h
      | some r =>
        simp [updateScan, hk, hu] at h
        obtain ⟨pre, x, post, hb, hx, hpre, hr⟩ := ih r hu
        refine ⟨kv :: pre, x, post, by rw [hb]; rfl, hx, ?_, by rw [← h, hr]; rfl⟩
        intro y hy
        rcases List.mem_cons.mp hy with rfl | hy
        · exact hk
        · exact hpre y hy

/-- Writing the value a key already has leaves the bucket as it is. -/
theorem updateScan_same (k : K) (v : V) :
    ∀ (b : List (KeyValue K V)), findValue k b = some v → updateScan k v b = some b := by
  intro b
  induction b with
  | nil => intro h; simp [findValue] at h
  | cons kv rest ih =>
    intro h
    by_cases hk : kv.key = k
    · simp [findValue, hk] at h
      cases kv with
      | mk key value =>
        simp only at hk h
        subst hk h
        simp [updateScan]
    · simp [findValue, hk] at h
      simp [updateScan, hk, ih h]

theorem mem_of_findValue (k : K) (v : V) :
    ∀ (b : List (KeyValue K V)), findValue k b = some v → KeyValue.mk k v ∈ b := by
  intro b
  induction b with
  | nil => intro h; simp [findValue] at h
  | cons kv rest ih =>
    intro h
    by_cases hk : kv.key = k
    · simp [findValue, hk] at h
      cases kv with
      | mk key value =>
        simp only at hk h
        subst hk h
        exact List.mem_cons_self _ _
    · simp [findValue, hk] at h
      exact List.mem_cons_of_mem _ (ih h)

/-- In a bucket with pairwise distinct keys the scan finds every entry of the bucket. -/
theorem findValue_of_mem (k : K) (v : V) :
    ∀ (b : List (KeyValue K V)), (b.map KeyValue.key).Nodup → KeyValue.mk k v ∈ b →
      findValue k b = some v := by
  intro b
  induction b with
  | nil => intro _ h; simp at h
  | cons kv rest ih =>
    intro hnd hmem
    rw [List.map_cons, List.nodup_cons] at hnd
    rcases List.mem_cons.mp hmem with heq | hin
    · subst heq
      simp [findValue]
    · have hk : kv.key ≠ k := by
        intro hk
        apply hnd.1
        rw [hk]
        exact List.mem_map.mpr ⟨_, hin, rfl⟩
      simp [findValue, hk, ih hnd.2 hin]

end Bucket

/-! ## The operations in terms of the bucket they scan -/

section Table

theorem lt_of_getElem?_eq_some {α : Type} {l : List α} {i : Nat} {a : α}
    (h : l[i]? = some a) : i < l.length := by
  by_contra hlt
  rw [List.getElem?_eq_none (Nat.le_of_not_lt hlt)] at h
  exact Option.noConfusion h

theorem exists_bucket {α : Type} (l : List α) (x : Nat) (h : 1 ≤ l.length) :
    ∃ b, l[x % l.length]? = some b :=
  ⟨_, List.getElem?_eq_getElem (Nat.mod_lt _ h)⟩

theorem insert_hit (hash : K → Nat) (t : MyHashTable K V) (k : K) (v : V)
    (b b' : List (KeyValue K V)) (hb : t.table[hash k % t.table.length]? = some b)
    (hu : updateScan k v b = some b') :
    insert hash t k v = Except.ok
      { table := t.table.set (hash k % t.table.length) b', numElements := t.numElements } := by
  have hlen : t.table.length ≠ 0 := Nat.not_eq_zero_of_lt (lt_of_getElem?_eq_some hb)
  simp [insert, getBucketIndex, bucketAt, hlen, hb, hu]

theorem insert_miss (hash : K → Nat) (t : MyHashTable K V) (k : K) (v : V)
    (b : List (KeyValue K V)) (hb : t.table[hash k % t.table.length]? = some b)
    (hu : updateScan k v b = none) :
    insert hash t k v = Except.ok
      { table := t.table.set (hash k % t.table.length) (b ++ [KeyValue.mk k v]),
        numElements := (t.numElements + 1) % SIZE_MOD } := by
  have hlen : t.table.length ≠ 0 := Nat.not_eq_zero_of_lt (lt_of_getElem?_eq_some hb)
  simp [insert, getBucketIndex, bucketAt, hlen, hb, hu]

theorem retrieve_eq (hash : K → Nat) (t : MyHashTable K V) (k : K)
    (b : List (KeyValue K V)) (hb : t.table[hash k % t.table.length]? = some b) :
    retrieve hash t k = Except.ok (findValue k b) := by
  have hlen : t.table.length ≠ 0 := Nat.not_eq_zero_of_lt (lt_of_getElem?_eq_some hb)
  simp [retrieve, getBucketIndex, bucketAt, hlen, hb]

theorem remove_hit (hash : K → Nat) (t : MyHashTable K V) (k : K)
    (b b' : List (KeyValue K V)) (hb : t.table[hash k % t.table.length]? = some b)
    (hu : eraseScan k b = some b') :
    remove hash t k = Except.ok
      (true, { table := t.table.set (hash k % t.table.length) b',
               numElements := (t.numElements + SIZE_MOD - 1) % SIZE_MOD }) := by
  have hlen : t.table.length ≠ 0 := Nat.not_eq_zero_of_lt (lt_of_getElem?_eq_some hb)
  simp [remove, getBucketIndex, bucketAt, hlen, hb, hu]

theorem remove_miss (hash : K → Nat) (t : MyHashTable K V) (k : K)
    (b : List (KeyValue K V)) (hb : t.table[hash k % t.table.length]? = some b)
    (hu : eraseScan k b = none) :
    remove hash t k = Except.ok (false, t) := by
  have hlen : t.table.length ≠ 0 := Nat.not_eq_zero_of_lt (lt_of_getElem?_eq_some hb)
  simp [remove, getBucketIndex, bucketAt, hlen, hb, hu]

/-- Reading, after the bucket at `i` was replaced, the bucket that a key selects. -/
theorem retrieve_set (hash : K → Nat) (t : MyHashTable K V) (k : K) (n : Nat)
    (b : List (KeyValue K V)) (h : 1 ≤ t.table.length) :
    retrieve hash { table := t.table.set (hash k % t.table.length) b, numElements := n } k =
      Except.ok (findValue k b) := by
  apply retrieve_eq
  simp [List.getElem?_set_self, Nat.mod_lt _ h]

/-- What `insert` returns on a table with at least one bucket. -/
theorem insert_result (hash : K → Nat) (t : MyHashTable K V) (k : K) (v : V)
    (h : 1 ≤ t.table.length) :
    ∃ (b b1 : List (KeyValue K V)) (n1 : Nat),
      t.table[hash k % t.table.length]? = some b ∧
      insert hash t k v =
        Except.ok { table := t.table.set (hash k % t.table.length) b1, numElements := n1 } ∧
      findValue k b1 = some v ∧
      ((updateScan k v b = some b1 ∧ n1 = t.numElements) ∨
       (updateScan k v b = none ∧ b1 = b ++ [KeyValue.mk k v] ∧
        n1 = (t.numElements + 1) % SIZE_MOD)) := by
  obtain ⟨b, hb⟩ := exists_bucket t.table (hash k) h
  cases hu : updateScan k v b with
  | some b' =>
    exact ⟨b, b', _, hb, insert_hit hash t k v b b' hb hu,
      findValue_updateScan k v b b' hu, Or.inl ⟨hu, rfl⟩⟩
  | none =>
    exact ⟨b, _, _, hb, insert_miss hash t k v b hb hu,
      findValue_append_new k v b ((updateScan_eq_none_iff k v b).mp hu), Or.inr ⟨hu, rfl, rfl⟩⟩

/-- What `remove` returns on a table with at least one bucket. -/
theorem remove_result (hash : K → Nat) (t : MyHashTable K V) (k : K)
    (h : 1 ≤ t.table.length) :
    ∃ (b : List (KeyValue K V)),
      t.table[hash k % t.table.length]? = some b ∧
      ((∃ b1, eraseScan k b = some b1 ∧ remove hash t k = Except.ok
          (true, { table := t.table.set (hash k % t.table.length) b1,
                   numElements := (t.numElements + SIZE_MOD - 1) % SIZE_MOD })) ∨
       (eraseScan k b = none ∧ remove hash t k = Except.ok (false, t))) := by
  obtain ⟨b, hb⟩ := exists_bucket t.table (hash k) h
  cases hu : eraseScan k b with
  | some b' => exact ⟨b, hb, Or.inl ⟨b', hu, remove_hit hash t k b b' hb hu⟩⟩
  | none => exact ⟨b, hb, Or.inr ⟨hu, remove_miss hash t k b hb hu⟩⟩

theorem sum_length_set {α : Type} :
    ∀ (l : List (List α)) (i : Nat) (b b' : List α), l[i]? = some b →
      ((l.set i b').map List.length).sum + b.length = (l.map List.length).sum + b'.length := by
  intro l
  induction l with
  | nil => intro i b b' h; simp at h
  | cons x rest ih =>
    intro i b b' h
    cases i with
    | zero =>
      simp at h
      subst h
      simp
      omega
    | succ j =>
      simp at h
      have := ih j b b' h
      simp only [List.set_cons_succ, List.map_cons, List.sum_cons]
      omega

theorem size_mod_eq : SIZE_MOD = 18446744073709551616 := by decide

omit [DecidableEq K] in
/-- A freshly constructed table with at least one bucket satisfies the invariant. -/
theorem WF_new (hash : K → Nat) (n : Nat) (h : 1 ≤ n) :
    WF hash (MyHashTable.new n : MyHashTable K V) := by
  refine ⟨by simpa [MyHashTable.new] using h, ?_, ?_, ?_⟩
  · intro i b hb kv hkv
    have hmem : b ∈ List.replicate n ([] : List (KeyValue K V)) := List.getElem?_mem hb
    rw [(List.mem_replicate.mp hmem).2] at hkv
    simp at hkv
  · intro b hb
    have hmem : b ∈ List.replicate n ([] : List (KeyValue K V)) := hb
    rw [(List.mem_replicate.mp hmem).2]
    simp
  · simp [MyHashTable.new, totalEntries]

/-- `insert` keeps the invariant. -/
theorem WF_insert (hash : K → Nat) (t t' : MyHashTable K V) (k : K) (v : V)
    (hwf : WF hash t) (hi : insert hash t k v = Except.ok t') : WF hash t' := by
  obtain ⟨b, b1, n1, hb, hins, -, hcase⟩ := insert_result hash t k v hwf.pos
  rw [hins] at hi
  injection hi with hi
  subst hi
  have hlt : hash k % t.table.length < t.table.length := Nat.mod_lt _ hwf.pos
  have hsum := sum_length_set t.table _ b b1 hb
  have hkeys : ∀ kv ∈ b1, kv.key = k ∨ kv.key ∈ b.map KeyValue.key := by
    intro kv hkv
    rcases hcase with ⟨hu, -⟩ | ⟨-, hb1, -⟩
    · exact Or.inr (mem_of_updateScan k v b b1 hu kv hkv)
    · subst hb1
      rcases List.mem_append.mp hkv with hm | hm
      · exact Or.inr (List.mem_map_of_mem _ hm)
      · simp at hm
        exact Or.inl (by rw [hm])
  refine ⟨by simpa using hwf.pos, ?_, ?_, ?_⟩
  · intro j bj hbj kv hkv
    simp only [List.length_set]
    by_cases hj : hash k % t.table.length = j
    · subst hj
      rw [List.getElem?_set_self hlt] at hbj
      injection hbj with hbj
      subst hbj
      rcases hkeys kv hkv with hk | hk
      · rw [hk]
      · obtain ⟨kv0, hkv0, hk0⟩ := List.mem_map.mp hk
        rw [← hk0]
        exact hwf.placed _ b hb kv0 hkv0
    · rw [List.getElem?_set_ne hj] at hbj
      exact hwf.placed j bj hbj kv hkv
  · intro bj hbj
    rcases List.mem_or_eq_of_mem_set hbj with hm | hm
    · exact hwf.nodup bj hm
    · subst hm
      have hnd : (b.map KeyValue.key).Nodup := hwf.nodup b (List.getElem?_mem hb)
      rcases hcase with ⟨hu, -⟩ | ⟨hu, hb1, -⟩
      · rw [keys_updateScan k v b bj hu]
        exact hnd
      · subst hb1
        rw [List.map_append, List.nodup_append]
        refine ⟨hnd, by simp, ?_⟩
        intro x hx hx'
        simp at hx'
        obtain ⟨kv0, hkv0, hk0⟩ := List.mem_map.mp hx
        exact (updateScan_eq_none_iff k v b).mp hu kv0 hkv0 (hk0.trans hx')
  · have hc := hwf.count
    simp only [totalEntries] at hc hsum ⊢
    rcases hcase with ⟨hu, hn⟩ | ⟨-, hb1, hn⟩
    · have hl := length_updateScan k v b b1 hu
      have : (List.map List.length (t.table.set (hash k % t.table.length) b1)).sum =
          (List.map List.length t.table).sum := by omega
      simp only [this, hn, hc]
    · subst hb1
      simp only [List.length_append, List.length_singleton] at hsum
      have : (List.map List.length
          (t.table.set (hash k % t.table.length) (b ++ [KeyValue.mk k v]))).sum =
          (List.map List.length t.table).sum + 1 := by omega
      simp only [this, hn, hc, size_mod_eq]
      omega

/-- `remove` keeps the invariant. -/
theorem WF_remove (hash : K → Nat) (t t' : MyHashTable K V) (k : K) (r : Bool)
    (hwf : WF hash t) (hi : remove hash t k = Except.ok (r, t')) : WF hash t' := by
  obtain ⟨b, hb, ⟨b1, hu, hrem⟩ | ⟨-, hrem⟩⟩ := remove_result hash t k hwf.pos
  · rw [hrem] at hi
    injection hi with hi
    injection hi with _ hi
    subst hi
    have hlt : hash k % t.table.length < t.table.length := Nat.mod_lt _ hwf.pos
    have hsum := sum_length_set t.table _ b b1 hb
    refine ⟨by simpa using hwf.pos, ?_, ?_, ?_⟩
    · intro j bj hbj kv hkv
      simp only [List.length_set]
      by_cases hj : hash k % t.table.length = j
      · subst hj
        rw [List.getElem?_set_self hlt] at hbj
        injection hbj with hbj
        subst hbj
        exact hwf.placed _ b hb kv (mem_of_eraseScan k b _ hu kv hkv)
      · rw [List.getElem?_set_ne hj] at hbj
        exact hwf.placed j bj hbj kv hkv
    · intro bj hbj
      rcases List.mem_or_eq_of_mem_set hbj with hm | hm
      · exact hwf.nodup bj hm
      · subst hm
        rw [keys_eraseScan k b bj hu]
        exact List.Nodup.erase _ (hwf.nodup b (List.getElem?_mem hb))
    · have hc := hwf.count
      have hl := length_eraseScan k b b1 hu
      simp only [totalEntries] at hc hsum ⊢
      have : (List.map List.length t.table).sum =
          (List.map List.length (t.table.set (hash k % t.table.length) b1)).sum + 1 := by omega
      simp only [hc, this, size_mod_eq]
      omega
  · rw [hrem] at hi
    injection hi with hi
    injection hi with _ hi
    subst hi
    exact hwf

/-- A sequence of calls keeps the invariant. -/
theorem WF_applyOps (hash : K → Nat) :
    ∀ (ops : List (Op K V)) (t t' : MyHashTable K V), WF hash t →
      applyOps hash t ops = Except.ok t' → WF hash t' := by
  intro ops
  induction ops with
  | nil =>
    intro t t' hwf h
    simp [applyOps] at h
    subst h
    exact hwf
  | cons op rest ih =>
    intro t t' hwf h
    cases op with
    | insert key value =>
      cases hi : insert hash t key value with
      | error e => simp [applyOps, applyOp, hi] at h
      | ok t1 =>
        simp [applyOps, applyOp, hi] at h
        exact ih t1 t' (WF_insert hash t t1 key value hwf hi) h
    | remove key =>
      cases hi : remove hash t key with
      | error e => simp [applyOps, applyOp, hi] at h
      | ok res =>
        obtain ⟨r, t1⟩ := res
        simp [applyOps, applyOp, hi] at h
        exact ih t1 t' (WF_remove hash t t1 key r hwf hi) h

/-- Every reachable state satisfies the invariant. -/
theorem WF_of_reachable (hash : K → Nat) (t : MyHashTable K V) (h : Reachable hash t) :
    WF hash t := by
  obtain ⟨n, ops, hn, hrun⟩ := h
  exact WF_applyOps hash ops _ t (WF_new hash n hn) hrun

theorem filter_flatten_nil {α : Type} (p : α → Bool) :
    ∀ (l : List (List α)), (∀ b ∈ l, b.filter p = []) → l.flatten.filter p = [] := by
  intro l
  induction l with
  | nil => intro _; rfl
  | cons x rest ih =>
    intro h
    rw [List.flatten_cons, List.filter_append, h x (List.mem_cons_self _ _),
      ih (fun b hb => h b (List.mem_cons_of_mem _ hb))]
    rfl

/-- When only the bucket at `i` can hold entries satisfying `p`, filtering all buckets
taken together is filtering that bucket. -/
theorem filter_flatten_single {α : Type} (p : α → Bool) :
    ∀ (l : List (List α)) (i : Nat),
      (∀ (j : Nat) (b : List α), l[j]? = some b → j ≠ i → b.filter p = []) →
      l.flatten.filter p = (l[i]?.getD []).filter p := by
  intro l
  induction l with
  | nil => intro i _; simp
  | cons x rest ih =>
    intro i h
    rw [List.flatten_cons, List.filter_append]
    cases i with
    | zero =>
      have hrest : rest.flatten.filter p = [] := by
        apply filter_flatten_nil
        intro b hb
        obtain ⟨j, hj⟩ := List.mem_iff_getElem?.mp hb
        exact h (j + 1) b (by simpa using hj) (Nat.succ_ne_zero j)
      simp [hrest]
    | succ i' =>
      have hx : x.filter p = [] := h 0 x (by simp) (Nat.succ_ne_zero i').symm
      have hr := ih i' (fun j b hj hne => h (j + 1) b (by simpa using hj) (by omega))
      simp [hx, hr]

theorem bucket_filter_le_one (k : K) :
    ∀ (b : List (KeyValue K V)), (b.map KeyValue.key).Nodup →
      (b.filter (fun kv => decide (kv.key = k))).length ≤ 1 := by
  intro b
  induction b with
  | nil => intro _; simp
  | cons kv rest ih =>
    intro hnd
    rw [List.map_cons, List.nodup_cons] at hnd
    by_cases hk : kv.key = k
    · have hnone : rest.filter (fun x => decide (x.key = k)) = [] := by
        rw [List.filter_eq_nil_iff]
        intro x hx hxk
        have hxk' : x.key = k := by simpa using hxk
        exact hnd.1 (by rw [hk, ← hxk']; exact List.mem_map_of_mem _ hx)
      simp [List.filter_cons, hk, hnone]
    · simpa [List.filter_cons, hk] using ih hnd.2

/-- Under the invariant a key has at most one entry in the whole table. -/
theorem entriesWithKey_le_one (hash : K → Nat) (t : MyHashTable K V) (k : K)
    (hwf : WF hash t) : (entriesWithKey t k).length ≤ 1 := by
  unfold entriesWithKey
  rw [filter_flatten_single _ t.table (hash k % t.table.length)]
  · cases hb : t.table[hash k % t.table.length]? with
    | none => simp
    | some b =>
      simpa using bucket_filter_le_one k b (hwf.nodup b (List.getElem?_mem hb))
  · intro j b hb hne
    rw [List.filter_eq_nil_iff]
    intro x hx hxk
    have hxk' : x.key = k := by simpa using hxk
    exact hne (by rw [← hwf.placed j b hb x hx, hxk'])

omit [DecidableEq K] in
/-- The bucket a key selects after the bucket at `i` was replaced by `b1`. -/
theorem getElem?_set_table (t : MyHashTable K V) (i j n1 : Nat) (b1 c : List (KeyValue K V))
    (hi : i < t.table.length) (hc : t.table[j]? = some c) :
    (MyHashTable.mk (t.table.set i b1) n1).table[j]? = some (if i = j then b1 else c) := by
  by_cases hj : i = j
  · subst hj
    simp only [if_true]
    exact List.getElem?_set_self hi
  · simp only [hj, if_false]
    rw [List.getElem?_set_ne hj]
    exact hc

/-- What `retrieve(k2)` returns after the bucket of `k1` was replaced by `b1`. -/
theorem retrieve_after_set (hash : K → Nat) (t : MyHashTable K V) (k1 k2 : K) (n1 : Nat)
    (b b1 : List (KeyValue K V)) (h : 1 ≤ t.table.length)
    (hb : t.table[hash k1 % t.table.length]? = some b)
    (hsame : findValue k2 b1 = findValue k2 b) :
    retrieve hash (MyHashTable.mk (t.table.set (hash k1 % t.table.length) b1) n1) k2 =
      retrieve hash t k2 := by
  obtain ⟨c, hc⟩ := exists_bucket t.table (hash k2) h
  rw [retrieve_eq hash t k2 c hc]
  have hget : (MyHashTable.mk (t.table.set (hash k1 % t.table.length) b1) n1).table[
      hash k2 % (MyHashTable.mk (t.table.set (hash k1 % t.table.length) b1) n1).table.length]? =
      some (if hash k1 % t.table.length = hash k2 % t.table.length then b1 else c) := by
    have hlen : (MyHashTable.mk (t.table.set (hash k1 % t.table.length) b1) n1).table.length =
        t.table.length := List.length_set _ _ _
    rw [hlen]
    exact getElem?_set_table t _ _ n1 b1 c (Nat.mod_lt _ h) hc
  rw [retrieve_eq hash _ k2 _ hget]
  by_cases hj : hash k1 % t.table.length = hash k2 % t.table.length
  · rw [if_pos hj, hsame]
    rw [hj, hc] at hb
    rw [Option.some.inj hb]
  · rw [if_neg hj]

/-- A call `insert(k1, v)` does not change what `retrieve(k2)` returns for another key. -/
theorem retrieve_insert_ne (hash : K → Nat) (t t' : MyHashTable K V) (k1 k2 : K) (v : V)
    (h : 1 ≤ t.table.length) (hne : k1 ≠ k2) (hi : insert hash t k1 v = Except.ok t') :
    retrieve hash t' k2 = retrieve hash t k2 := by
  obtain ⟨b, b1, n1, hb, hins, -, hcase⟩ := insert_result hash t k1 v h
  rw [hins] at hi
  injection hi with hi
  subst hi
  apply retrieve_after_set hash t k1 k2 n1 b b1 h hb
  rcases hcase with ⟨hu, -⟩ | ⟨-, hb1, -⟩
  · exact findValue_updateScan_ne k1 k2 v hne b b1 hu
  · rw [hb1]
    exact findValue_append_ne k1 k2 v hne b

/-- A call `remove(k1)` does not change what `retrieve(k2)` returns for another key. -/
theorem retrieve_remove_ne (hash : K → Nat) (t t' : MyHashTable K V) (k1 k2 : K) (r : Bool)
    (h : 1 ≤ t.table.length) (hne : k1 ≠ k2) (hi : remove hash t k1 = Except.ok (r, t')) :
    retrieve hash t' k2 = retrieve hash t k2 := by
  obtain ⟨b, hb, ⟨b1, hu, hrem⟩ | ⟨-, hrem⟩⟩ := remove_result hash t k1 h
  · rw [hrem] at hi
    injection hi with hi
    injection hi with _ hi
    subst hi
    exact retrieve_after_set hash t k1 k2 _ b b1 h hb (findValue_eraseScan_ne k1 k2 hne b b1 hu)
  · rw [hrem] at hi
    injection hi with hi
    injection hi with _ hi
    subst hi
    rfl

/-- On a freshly constructed table with at least one bucket every `retrieve` is empty. -/
theorem retrieve_new (hash : K → Nat) (n : Nat) (k : K) (h : 1 ≤ n) :
    retrieve hash (MyHashTable.new n : MyHashTable K V) k = Except.ok none := by
  have h1 : 1 ≤ (MyHashTable.new n : MyHashTable K V).table.length := by
    simpa [MyHashTable.new] using h
  obtain ⟨b, hb⟩ := exists_bucket (MyHashTable.new n : MyHashTable K V).table (hash k) h1
  rw [retrieve_eq hash _ k b hb]
  have hmem : b ∈ List.replicate n ([] : List (KeyValue K V)) := List.getElem?_mem hb
  rw [(List.mem_replicate.mp hmem).2]
  rfl

/-- Inserting pairs with pairwise distinct keys, none of them in the table, adds their
number to the element count. -/
theorem insertAll_distinct (hash : K → Nat) :
    ∀ (kvs : List (K × V)) (t : MyHashTable K V), 1 ≤ t.table.length →
      t.numElements < SIZE_MOD →
      (∀ p ∈ kvs, retrieve hash t p.1 = Except.ok none) → (kvs.map Prod.fst).Nodup →
      ∃ t', insertAll hash t kvs = Except.ok t' ∧
        t'.numElements = (t.numElements + kvs.length) % SIZE_MOD := by
  intro kvs
  induction kvs with
  | nil =>
    intro t _ hn _ _
    exact ⟨t, rfl, (Nat.mod_eq_of_lt hn).symm⟩
  | cons p rest ih =>
    intro t h hn habs hnd
    obtain ⟨k, v⟩ := p
    rw [List.map_cons, List.nodup_cons] at hnd
    obtain ⟨b, hb⟩ := exists_bucket t.table (hash k) h
    have hk := habs (k, v) (List.mem_cons_self _ _)
    rw [retrieve_eq hash t k b hb] at hk
    injection hk with hk
    have hu : updateScan k v b = none := by
      rw [updateScan_eq_none_iff, ← findValue_eq_none_iff]
      exact hk
    have hins := insert_miss hash t k v b hb hu
    have habs' : ∀ q ∈ rest, retrieve hash
        (MyHashTable.mk (t.table.set (hash k % t.table.length) (b ++ [KeyValue.mk k v]))
          ((t.numElements + 1) % SIZE_MOD)) q.1 = Except.ok none := by
      intro q hq
      have hne : k ≠ q.1 := by
        intro heq
        apply hnd.1
        rw [heq]
        exact List.mem_map.mpr ⟨q, hq, rfl⟩
      rw [retrieve_insert_ne hash t _ k q.1 v h hne hins]
      exact habs q (List.mem_cons_of_mem _ hq)
    have hpos : 0 < SIZE_MOD := by rw [size_mod_eq]; decide
    obtain ⟨t', hrun, hcount⟩ := ih _ (by simpa using h) (Nat.mod_lt _ hpos) habs' hnd.2
    refine ⟨t', by simp [insertAll, hins, hrun], ?_⟩
    rw [hcount]
    show ((t.numElements + 1) % SIZE_MOD + rest.length) % SIZE_MOD =
      (t.numElements + (rest.length + 1)) % SIZE_MOD
    rw [Nat.mod_add_mod]
    congr 1
    omega

theorem exampleTable_reachable : Reachable id exampleTable :=
  ⟨4, [Op.insert 5 "b"], by decide, rfl⟩

theorem two_lt_size_mod : 2 < SIZE_MOD := by decide

/-- Outside the bucket it scans, `insert` leaves the table as it was. -/
theorem insert_frame (hash : K → Nat) (t : MyHashTable K V) (k : K) (v : V)
    (h : 1 ≤ t.table.length) :
    ∃ t', insert hash t k v = Except.ok t' ∧ t'.table.length = t.table.length ∧
      ∀ j, j ≠ hash k % t.table.length → t'.table[j]? = t.table[j]? := by
  obtain ⟨b, b1, n1, -, hins, -, -⟩ := insert_result hash t k v h
  refine ⟨_, hins, List.length_set _ _ _, fun j hj => ?_⟩
  exact List.getElem?_set_ne (Ne.symm hj)

/-- Outside the bucket it scans, `remove` leaves the table as it was. -/
theorem remove_frame (hash : K → Nat) (t : MyHashTable K V) (k : K)
    (h : 1 ≤ t.table.length) :
    ∃ r t', remove hash t k = Except.ok (r, t') ∧ t'.table.length = t.table.length ∧
      ∀ j, j ≠ hash k % t.table.length → t'.table[j]? = t.table[j]? := by
  obtain ⟨b, -, ⟨b1, -, hrem⟩ | ⟨-, hrem⟩⟩ := remove_result hash t k h
  · refine ⟨true, _, hrem, List.length_set _ _ _, fun j hj => ?_⟩
    exact List.getElem?_set_ne (Ne.symm hj)
  · exact ⟨false, t, hrem, rfl, fun _ _ => rfl⟩

/-! ### The reference map -/

theorem refLookup_erase_self (k : K) :
    ∀ (m : List (K × V)), refLookup (refErase m k) k = none := by
  intro m
  induction m with
  | nil => rfl
  | cons p rest ih =>
    obtain ⟨k1, v1⟩ := p
    by_cases hk : k1 = k
    · simpa [refErase, hk] using ih
    · have : refErase ((k1, v1) :: rest) k = (k1, v1) :: refErase rest k := by
        simp [refErase, hk]
      rw [this]
      simp [refLookup, hk, ih]

theorem refLookup_erase_ne (k k2 : K) (hne : k ≠ k2) :
    ∀ (m : List (K × V)), refLookup (refErase m k) k2 = refLookup m k2 := by
  intro m
  induction m with
  | nil => rfl
  | cons p rest ih =>
    obtain ⟨k1, v1⟩ := p
    by_cases hk : k1 = k
    · have h1 : refErase ((k1, v1) :: rest) k = refErase rest k := by
        simp [refErase, hk]
      have h2 : k1 ≠ k2 := by rw [hk]; exact hne
      rw [h1, ih]
      simp [refLookup, h2]
    · have h1 : refErase ((k1, v1) :: rest) k = (k1, v1) :: refErase rest k := by
        simp [refErase, hk]
      rw [h1]
      by_cases h2 : k1 = k2
      · simp [refLookup, h2]
      · simp [refLookup, h2, ih]

theorem refLookup_of_not_mem (k : K) :
    ∀ (m : List (K × V)), k ∉ m.map Prod.fst → refLookup m k = none := by
  intro m
  induction m with
  | nil => intro _; rfl
  | cons p rest ih =>
    intro hk
    obtain ⟨k1, v1⟩ := p
    rw [List.map_cons, List.mem_cons, not_or] at hk
    have h1 : k1 ≠ k := fun h => hk.1 h.symm
    simp [refLookup, h1, ih hk.2]

theorem refErase_not_mem (k : K) (m : List (K × V)) : k ∉ (refErase m k).map Prod.fst := by
  intro h
  obtain ⟨p, hp, hpk⟩ := List.mem_map.mp h
  have := (List.mem_filter.mp hp).2
  simp [hpk] at this

theorem refErase_keys_nodup (k : K) (m : List (K × V)) (h : (m.map Prod.fst).Nodup) :
    ((refErase m k).map Prod.fst).Nodup :=
  List.Nodup.sublist (List.Sublist.map Prod.fst (List.filter_sublist m)) h

theorem refSet_keys_nodup (k : K) (v : V) (m : List (K × V)) (h : (m.map Prod.fst).Nodup) :
    ((refSet m k v).map Prod.fst).Nodup := by
  rw [refSet, List.map_cons, List.nodup_cons]
  exact ⟨refErase_not_mem k m, refErase_keys_nodup k m h⟩

theorem refErase_length (k : K) :
    ∀ (m : List (K × V)), (m.map Prod.fst).Nodup →
      (refErase m k).length + (if (refLookup m k).isSome then 1 else 0) = m.length := by
  intro m
  induction m with
  | nil => intro _; rfl
  | cons p rest ih =>
    intro hnd
    obtain ⟨k1, v1⟩ := p
    rw [List.map_cons, List.nodup_cons] at hnd
    by_cases hk : k1 = k
    · have h1 : refErase ((k1, v1) :: rest) k = refErase rest k := by
        simp [refErase, hk]
      have h2 : refLookup rest k = none := by
        apply refLookup_of_not_mem
        rw [← hk]
        exact hnd.1
      have h3 := ih hnd.2
      rw [h2] at h3
      rw [h1]
      simp [refLookup, hk] at h3 ⊢
      exact h3
    · have h1 : refErase ((k1, v1) :: rest) k = (k1, v1) :: refErase rest k := by
        simp [refErase, hk]
      have h3 := ih hnd.2
      rw [h1]
      simp only [refLookup, hk, if_false, List.length_cons]
      omega

/-! ### The calls against the number of entries -/

/-- What `insert(k, v)` does to the answer for `k` and to the number of entries. -/
theorem insert_entries (hash : K → Nat) (t t' : MyHashTable K V) (k : K) (v : V)
    (h : 1 ≤ t.table.length) (hi : insert hash t k v = Except.ok t') :
    ∃ r, retrieve hash t k = Except.ok r ∧ retrieve hash t' k = Except.ok (some v) ∧
      totalEntries t' = totalEntries t + (if r.isSome then 0 else 1) := by
  obtain ⟨b, b1, n1, hb, hins, hfv, hcase⟩ := insert_result hash t k v h
  rw [hins] at hi
  injection hi with hi
  subst hi
  refine ⟨findValue k b, retrieve_eq hash t k b hb, ?_, ?_⟩
  · rw [retrieve_set hash t k n1 b1 h, hfv]
  · have hsum := sum_length_set t.table (hash k % t.table.length) b b1 hb
    show ((t.table.set (hash k % t.table.length) b1).map List.length).sum =
      (t.table.map List.length).sum + (if (findValue k b).isSome then 0 else 1)
    rcases hcase with ⟨hu, -⟩ | ⟨hu, hb1, -⟩
    · have hlen := length_updateScan k v b b1 hu
      have hsome : (findValue k b).isSome = true := by
        cases hf : findValue k b with
        | some x => rfl
        | none =>
          rw [findValue_eq_none_iff, ← updateScan_eq_none_iff k v] at hf
          rw [hf] at hu
          exact Option.noConfusion hu
      rw [hsome, if_pos rfl]
      omega
    · have hnone : findValue k b = none := by
        rw [findValue_eq_none_iff, ← updateScan_eq_none_iff k v]
        exact hu
      have hlen : b1.length = b.length + 1 := by rw [hb1]; simp
      rw [hnone]
      simp only [Option.isSome_none, Bool.false_eq_true, if_false]
      omega

/-- What `remove(k)` returns and does to the answer for `k` and to the number of entries. -/
theorem remove_entries (hash : K → Nat) (t t' : MyHashTable K V) (k : K) (res : Bool)
    (hwf : WF hash t) (hi : remove hash t k = Except.ok (res, t')) :
    ∃ r, retrieve hash t k = Except.ok r ∧ res = r.isSome ∧
      retrieve hash t' k = Except.ok none ∧
      totalEntries t' + (if r.isSome then 1 else 0) = totalEntries t := by
  have h := hwf.pos
  obtain ⟨b, hb, ⟨b1, hu, hrem⟩ | ⟨hu, hrem⟩⟩ := remove_result hash t k h
  · rw [hrem] at hi
    injection hi with hi
    injection hi with hres hi
    subst hi
    have hsome : (findValue k b).isSome = true := by
      cases hf : findValue k b with
      | some x => rfl
      | none =>
        rw [findValue_eq_none_iff, ← eraseScan_eq_none_iff k] at hf
        rw [hf] at hu
        exact Option.noConfusion hu
    refine ⟨findValue k b, retrieve_eq hash t k b hb, ?_, ?_, ?_⟩
    · rw [hsome, ← hres]
    · rw [retrieve_set hash t k _ b1 h]
      rw [findValue_eraseScan_self k b b1 (hwf.nodup b (List.getElem?_mem hb)) hu]
    · have hsum := sum_length_set t.table (hash k % t.table.length) b b1 hb
      have hlen := length_eraseScan k b b1 hu
      show ((t.table.set (hash k % t.table.length) b1).map List.length).sum +
        (if (findValue k b).isSome then 1 else 0) = (t.table.map List.length).sum
      rw [hsome, if_pos rfl]
      omega
  · rw [hrem] at hi
    injection hi with hi
    injection hi with hres hi
    subst hi
    have hnone : findValue k b = none := by
      rw [findValue_eq_none_iff, ← eraseScan_eq_none_iff k]
      exact hu
    refine ⟨none, ?_, ?_, ?_, ?_⟩
    · rw [retrieve_eq hash t k b hb, hnone]
    · rw [← hres]; rfl
    · rw [retrieve_eq hash t k b hb, hnone]
    · simp

/-! ### Simulation of the reference map -/

/-- A freshly constructed table with at least one bucket stands for the empty map. -/
theorem Sim_new (hash : K → Nat) (n : Nat) (h : 1 ≤ n) :
    Sim hash (MyHashTable.new n : MyHashTable K V) [] := by
  refine ⟨WF_new hash n h, List.nodup_nil, fun k => retrieve_new hash n k h, ?_⟩
  show ((List.replicate n ([] : List (KeyValue K V))).map List.length).sum = 0
  simp

theorem Sim_insert (hash : K → Nat) (t t' : MyHashTable K V) (m : List (K × V)) (k : K) (v : V)
    (hs : Sim hash t m) (hi : insert hash t k v = Except.ok t') :
    Sim hash t' (refSet m k v) := by
  obtain ⟨r, hr, hr', htot⟩ := insert_entries hash t t' k v hs.wf.pos hi
  have hrm : r = refLookup m k := by
    have := hs.lookup k
    rw [hr] at this
    injection this
  refine ⟨WF_insert hash t t' k v hs.wf hi, refSet_keys_nodup k v m hs.keys, ?_, ?_⟩
  · intro k2
    by_cases hk : k = k2
    · subst hk
      rw [hr']
      simp [refSet, refLookup]
    · rw [retrieve_insert_ne hash t t' k k2 v hs.wf.pos hk hi, hs.lookup k2]
      simp [refSet, refLookup, hk, refLookup_erase_ne k k2 hk m]
  · have hlen := refErase_length k m hs.keys
    have hent := hs.entries
    rw [← hrm] at hlen
    show totalEntries t' = (refErase m k).length + 1
    rw [htot]
    unfold refSize at hent
    by_cases hsome : r.isSome = true
    · rw [if_pos hsome] at hlen ⊢
      omega
    · rw [if_neg hsome] at hlen ⊢
      omega

theorem Sim_remove (hash : K → Nat) (t t' : MyHashTable K V) (m : List (K × V)) (k : K)
    (res : Bool) (hs : Sim hash t m) (hi : remove hash t k = Except.ok (res, t')) :
    Sim hash t' (refErase m k) := by
  obtain ⟨r, hr, -, hr', htot⟩ := remove_entries hash t t' k res hs.wf hi
  have hrm : r = refLookup m k := by
    have := hs.lookup k
    rw [hr] at this
    injection this
  refine ⟨WF_remove hash t t' k res hs.wf hi, refErase_keys_nodup k m hs.keys, ?_, ?_⟩
  · intro k2
    by_cases hk : k = k2
    · subst hk
      rw [hr', refLookup_erase_self]
    · rw [retrieve_remove_ne hash t t' k k2 res hs.wf.pos hk hi, hs.lookup k2,
        refLookup_erase_ne k k2 hk m]
  · have hlen := refErase_length k m hs.keys
    have hent := hs.entries
    rw [← hrm] at hlen
    show totalEntries t' = (refErase m k).length
    unfold refSize at hent
    omega

/-- Every sequence of calls runs to the end and keeps the table in step with the
reference map. -/
theorem Sim_applyOps (hash : K → Nat) :
    ∀ (ops : List (Op K V)) (t : MyHashTable K V) (m : List (K × V)), Sim hash t m →
      ∃ t', applyOps hash t ops = Except.ok t' ∧ Sim hash t' (refRun m ops) := by
  intro ops
  induction ops with
  | nil => intro t m hs; exact ⟨t, rfl, hs⟩
  | cons op rest ih =>
    intro t m hs
    cases op with
    | insert key value =>
      obtain ⟨t1, hins, -, -⟩ := insert_frame hash t key value hs.wf.pos
      obtain ⟨t2, hrun, hs2⟩ := ih t1 (refSet m key value) (Sim_insert hash t t1 m key value hs hins)
      exact ⟨t2, by simp [applyOps, applyOp, hins, hrun], hs2⟩
    | remove key =>
      obtain ⟨r, t1, hrem, -, -⟩ := remove_frame hash t key hs.wf.pos
      obtain ⟨t2, hrun, hs2⟩ := ih t1 (refErase m key) (Sim_remove hash t t1 m key r hs hrem)
      exact ⟨t2, by simp [applyOps, applyOp, hrem, hrun], hs2⟩

/-- A sequence of calls on a table with at least one bucket runs to the end and never
changes the number of buckets. -/
theorem length_applyOps (hash : K → Nat) :
    ∀ (ops : List (Op K V)) (t : MyHashTable K V), 1 ≤ t.table.length →
      ∃ t', applyOps hash t ops = Except.ok t' ∧ t'.table.length = t.table.length := by
  intro ops
  induction ops with
  | nil => intro t _; exact ⟨t, rfl, rfl⟩
  | cons op rest ih =>
    intro t hpos
    cases op with
    | insert key value =>
      obtain ⟨t1, hins, hlen, -⟩ := insert_frame hash t key value hpos
      obtain ⟨t2, hrun, hlen2⟩ := ih t1 (by rw [hlen]; exact hpos)
      exact ⟨t2, by simp [applyOps, applyOp, hins, hrun], by rw [hlen2, hlen]⟩
    | remove key =>
      obtain ⟨r, t1, hrem, hlen, -⟩ := remove_frame hash t key hpos
      obtain ⟨t2, hrun, hlen2⟩ := ih t1 (by rw [hlen]; exact hpos)
      exact ⟨t2, by simp [applyOps, applyOp, hrem, hrun], by rw [hlen2, hlen]⟩

/-- Running a sequence of calls is running its first part and then the rest. -/
theorem applyOps_append (hash : K → Nat) :
    ∀ (pre post : List (Op K V)) (t tp : MyHashTable K V),
      applyOps hash t pre = Except.ok tp →
      applyOps hash t (pre ++ post) = applyOps hash tp post := by
  intro pre
  induction pre with
  | nil =>
    intro post t tp h
    simp [applyOps] at h
    rw [h]
    rfl
  | cons op rest ih =>
    intro post t tp h
    cases h1 : applyOp hash t op with
    | error e => simp [applyOps, h1] at h
    | ok t1 =>
      simp [applyOps, h1] at h
      simp [applyOps, h1]
      exact ih post t1 tp h

theorem refRun_append :
    ∀ (pre post : List (Op K V)) (m : List (K × V)),
      refRun m (pre ++ post) = refRun (refRun m pre) post := by
  intro pre
  induction pre with
  | nil => intro post m; rfl
  | cons op rest ih => intro post m; exact ih post (refStep m op)

/-- In a table that satisfies the invariant, the scan of the one bucket a key selects
finds exactly the entries any bucket holds for that key. -/
theorem findValue_iff_mem (hash : K → Nat) (t : MyHashTable K V) (k : K) (v : V)
    (b : List (KeyValue K V)) (hwf : WF hash t)
    (hb : t.table[hash k % t.table.length]? = some b) :
    findValue k b = some v ↔ ∃ c ∈ t.table, KeyValue.mk k v ∈ c := by
  constructor
  · intro h
    exact ⟨b, List.getElem?_mem hb, mem_of_findValue k v b h⟩
  · rintro ⟨c, hc, hmem⟩
    obtain ⟨j, hj⟩ := List.mem_iff_getElem?.mp hc
    have hpl := hwf.placed j c hj _ hmem
    have hpl2 : hash k % t.table.length = j := hpl
    rw [hpl2, hj] at hb
    have hcb : c = b := Option.some.inj hb
    subst hcb
    exact findValue_of_mem k v c (hwf.nodup c hc) hmem

omit [DecidableEq K] in
/-- The length of a bucket is at most the number of entries of the table. -/
theorem length_le_totalEntries (t : MyHashTable K V) (i : Nat) (b : List (KeyValue K V))
    (hb : t.table[i]? = some b) : b.length ≤ totalEntries t := by
  have hsum := sum_length_set t.table i b [] hb
  show b.length ≤ (t.table.map List.length).sum
  simp only [List.length_nil] at hsum
  omega

/-- A `remove` that finds an entry in a table whose number of entries is a value of
`size_t` decrements a count that is at least 1. -/
theorem remove_size (hash : K → Nat) (t t' : MyHashTable K V) (k : K)
    (hwf : WF hash t) (hfit : totalEntries t < SIZE_MOD)
    (hrem : remove hash t k = Except.ok (true, t')) :
    1 ≤ t.numElements ∧ t'.numElements + 1 = t.numElements := by
  obtain ⟨b, hb, ⟨b1, hu, hrem1⟩ | ⟨-, hrem1⟩⟩ := remove_result hash t k hwf.pos
  · rw [hrem1] at hrem
    injection hrem with hrem
    injection hrem with _ hrem
    subst hrem
    have hle := length_le_totalEntries t _ b hb
    have hlen := length_eraseScan k b b1 hu
    have hc := hwf.count
    rw [Nat.mod_eq_of_lt hfit] at hc
    have h1 : 1 ≤ t.numElements := by omega
    have h2 : t.numElements < SIZE_MOD := by omega
    refine ⟨h1, ?_⟩
    show (t.numElements + SIZE_MOD - 1) % SIZE_MOD + 1 = t.numElements
    rw [size_mod_eq] at h2 ⊢
    omega
  · rw [hrem1] at hrem
    injection hrem with hrem
    injection hrem with hres _
    exact Bool.noConfusion hres

theorem exampleTable_fits : totalEntries exampleTable < SIZE_MOD := by decide

end Table

/-! ## Insert then retrieve, update -/

/-- C1. In any state of a table with at least one bucket, `insert(k, v)` returns and a
following `retrieve(k)` returns a present result holding `v`. -/
theorem insert_then_retrieve (hash : K → Nat) (t : MyHashTable K V) (k : K) (v : V)
    (h : 1 ≤ t.bucketCount) :
    ∃ t', insert hash t k v = Except.ok t' ∧ retrieve hash t' k = Except.ok (some v) := by
  have h1 : 1 ≤ t.table.length := h
  obtain ⟨b, hb⟩ := exists_bucket t.table (hash k) h1
  cases hu : updateScan k v b with
  | some b' =>
    refine ⟨_, insert_hit hash t k v b b' hb hu, ?_⟩
    rw [retrieve_set hash t k _ _ h1, findValue_updateScan k v b b' hu]
  | none =>
    refine ⟨_, insert_miss hash t k v b hb hu, ?_⟩
    rw [retrieve_set hash t k _ _ h1,
      findValue_append_new k v b ((updateScan_eq_none_iff k v b).mp hu)]

/-- Witness of C1 on a table of four buckets holding a colliding key. -/
theorem insert_then_retrieve_witness :
    ∃ t', insert id (MyHashTable.mk [[], [KeyValue.mk 5 "b"], [], []] 1) 1 "a" = Except.ok t' ∧
      retrieve id t' 1 = Except.ok (some "a") :=
  insert_then_retrieve id (MyHashTable.mk [[], [KeyValue.mk 5 "b"], [], []] 1) 1 "a" (by decide)

/-- C2. In any state of a table with at least one bucket, `insert(k, v1)` followed by
`insert(k, v2)` leaves `size()` as it was after the first insert, and `retrieve(k)` then
returns `v2`. -/
theorem update_overwrites (hash : K → Nat) (t : MyHashTable K V) (k : K) (v1 v2 : V)
    (h : 1 ≤ t.bucketCount) :
    ∃ t1 t2, insert hash t k v1 = Except.ok t1 ∧ insert hash t1 k v2 = Except.ok t2 ∧
      t2.size = t1.size ∧ retrieve hash t2 k = Except.ok (some v2) := by
  have h1 : 1 ≤ t.table.length := h
  obtain ⟨b, b1, n1, hb, hi1, hf1, -⟩ := insert_result hash t k v1 h1
  have hu2 : updateScan k v2 b1 ≠ none := by
    intro hnone
    rw [updateScan_eq_none_iff, ← findValue_eq_none_iff, hf1] at hnone
    exact Option.noConfusion hnone
  obtain ⟨b2, hb2⟩ := Option.ne_none_iff_exists'.mp hu2
  have hlen : (t.table.set (hash k % t.table.length) b1).length = t.table.length :=
    List.length_set _ _ _
  have hget : (MyHashTable.mk (t.table.set (hash k % t.table.length) b1) n1).table[
      hash k % (MyHashTable.mk (t.table.set (hash k % t.table.length) b1) n1).table.length]? =
      some b1 := by
    simp [List.getElem?_set_self, Nat.mod_lt _ h1]
  refine ⟨_, _, hi1, insert_hit hash _ k v2 b1 b2 hget hb2, rfl, ?_⟩
  rw [retrieve_set hash _ k _ _ (by simpa using h1), findValue_updateScan k v2 b1 b2 hb2]

/-- Witness of C2: the key is absent before the first insert. -/
theorem update_overwrites_witness :
    ∃ t1 t2, insert id (MyHashTable.mk [[], [KeyValue.mk 5 "b"], [], []] 1) 1 "a" = Except.ok t1 ∧
      insert id t1 1 "c" = Except.ok t2 ∧ t2.size = t1.size ∧
      retrieve id t2 1 = Except.ok (some "c") :=
  update_overwrites id (MyHashTable.mk [[], [KeyValue.mk 5 "b"], [], []] 1) 1 "a" "c" (by decide)

/-! ## Remove -/

/-- C3. In every reachable state, `insert(k, v)` followed by `remove(k)` makes `remove`
return true and a following `retrieve(k)` return empty; `size()` after the remove is
exactly one less than right after the insert, for every table whose number of entries is
a value of `size_t`. -/
theorem remove_round_trip (hash : K → Nat) (t : MyHashTable K V) (k : K) (v : V)
    (hR : Reachable hash t) :
    ∃ t1 t2, insert hash t k v = Except.ok t1 ∧ remove hash t1 k = Except.ok (true, t2) ∧
      retrieve hash t2 k = Except.ok none ∧
      (totalEntries t1 < SIZE_MOD → t2.size + 1 = t1.size) := by
  have hwf := WF_of_reachable hash t hR
  obtain ⟨b, b1, n1, hb, hins, hf1, -⟩ := insert_result hash t k v hwf.pos
  have hwf1 := WF_insert hash t _ k v hwf hins
  have hlt : hash k % t.table.length < t.table.length := Nat.mod_lt _ hwf.pos
  have hget : (MyHashTable.mk (t.table.set (hash k % t.table.length) b1) n1).table[
      hash k % (MyHashTable.mk (t.table.set (hash k % t.table.length) b1) n1).table.length]? =
      some b1 := by
    simp [List.getElem?_set_self, hlt]
  have he : eraseScan k b1 ≠ none := by
    intro hnone
    rw [eraseScan_eq_none_iff, ← findValue_eq_none_iff, hf1] at hnone
    exact Option.noConfusion hnone
  obtain ⟨b2, hb2⟩ := Option.ne_none_iff_exists'.mp he
  refine ⟨_, _, hins, remove_hit hash _ k b1 b2 hget hb2, ?_, ?_⟩
  · rw [retrieve_set hash _ k _ _ hwf1.pos]
    exact congrArg Except.ok
      (findValue_eraseScan_self k b1 b2 (hwf1.nodup b1 (List.getElem?_mem hget)) hb2)
  · intro hfit
    have hc : n1 = totalEntries (MyHashTable.mk (t.table.set (hash k % t.table.length) b1) n1) %
        SIZE_MOD := hwf1.count
    have hsum := sum_length_set _ _ b1 b2 hget
    have hl := length_eraseScan k b1 b2 hb2
    show (n1 + SIZE_MOD - 1) % SIZE_MOD + 1 = n1
    unfold totalEntries at hc hfit
    rw [size_mod_eq] at hc hfit ⊢
    omega

/-- C4. On a table with at least one bucket, when `retrieve(k)` is empty, `remove(k)`
returns false and the table after the call is the table before it: same buckets, same
element count. -/
theorem remove_miss_no_mutation (hash : K → Nat) (t : MyHashTable K V) (k : K)
    (h : 1 ≤ t.bucketCount) (habs : retrieve hash t k = Except.ok none) :
    remove hash t k = Except.ok (false, t) := by
  have h1 : 1 ≤ t.table.length := h
  obtain ⟨b, hb⟩ := exists_bucket t.table (hash k) h1
  rw [retrieve_eq hash t k b hb] at habs
  injection habs with habs
  apply remove_miss hash t k b hb
  rw [eraseScan_eq_none_iff, ← findValue_eq_none_iff]
  exact habs

/-! ## Invariants of reachable states -/

/-- C5. In every reachable state `size()` is the sum of the lengths of all buckets, the
sum being taken as a `size_t`: the two are equal whenever the sum is below `2 ^ 64`. -/
theorem count_invariant (hash : K → Nat) (t : MyHashTable K V) (hR : Reachable hash t) :
    t.size = totalEntries t % SIZE_MOD ∧
      (totalEntries t < SIZE_MOD → t.size = totalEntries t) := by
  have hc := (WF_of_reachable hash t hR).count
  refine ⟨hc, fun hfit => ?_⟩
  rw [MyHashTable.size, hc, Nat.mod_eq_of_lt hfit]

/-- C6. In every reachable state, for every key there is at most one entry with that key
across all buckets taken together. -/
theorem key_uniqueness (hash : K → Nat) (t : MyHashTable K V) (k : K)
    (hR : Reachable hash t) : (entriesWithKey t k).length ≤ 1 :=
  entriesWithKey_le_one hash t k (WF_of_reachable hash t hR)

/-- Witness of C3 on the table reached by `insert(5, "b")`, with a colliding key. -/
theorem remove_round_trip_witness :
    Reachable id exampleTable ∧
      ∃ t1 t2, insert id exampleTable 1 "a" = Except.ok t1 ∧
        remove id t1 1 = Except.ok (true, t2) ∧ retrieve id t2 1 = Except.ok none ∧
        (totalEntries t1 < SIZE_MOD → t2.size + 1 = t1.size) :=
  ⟨exampleTable_reachable, remove_round_trip id exampleTable 1 "a" exampleTable_reachable⟩

/-- Witness of C4: key 1 selects the bucket of key 5 and has no entry. -/
theorem remove_miss_no_mutation_witness :
    1 ≤ exampleTable.bucketCount ∧ retrieve id exampleTable 1 = Except.ok none ∧
      remove id exampleTable 1 = Except.ok (false, exampleTable) :=
  ⟨by decide, rfl, remove_miss_no_mutation id exampleTable 1 (by decide) rfl⟩

/-- Witness of C5 on the table reached by `insert(5, "b")`. -/
theorem count_invariant_witness :
    Reachable id exampleTable ∧ exampleTable.size = totalEntries exampleTable % SIZE_MOD ∧
      (totalEntries exampleTable < SIZE_MOD → exampleTable.size = totalEntries exampleTable) :=
  ⟨exampleTable_reachable, count_invariant id exampleTable exampleTable_reachable⟩

/-- Witness of C6 on the table reached by `insert(5, "b")`. -/
theorem key_uniqueness_witness :
    Reachable id exampleTable ∧ (entriesWithKey exampleTable 5).length ≤ 1 :=
  ⟨exampleTable_reachable, key_uniqueness id exampleTable 5 exampleTable_reachable⟩

/-- C7. Inserting `N` pairs with pairwise distinct keys, one after another, into a freshly
constructed table with at least one bucket returns a table with `size() == N`, whatever
buckets the keys select; `N` is a value of `size_t`. -/
theorem distinct_insert_count (hash : K → Nat) (n : Nat) (kvs : List (K × V))
    (hn : 1 ≤ n) (hd : (kvs.map Prod.fst).Nodup) (hN : kvs.length < SIZE_MOD) :
    ∃ t, insertAll hash (MyHashTable.new n) kvs = Except.ok t ∧ t.size = kvs.length := by
  have h1 : 1 ≤ (MyHashTable.new n : MyHashTable K V).table.length := by
    simpa [MyHashTable.new] using hn
  have h0 : (MyHashTable.new n : MyHashTable K V).numElements < SIZE_MOD := by
    show 0 < SIZE_MOD
    omega
  obtain ⟨t, hrun, hcount⟩ := insertAll_distinct hash kvs (MyHashTable.new n) h1 h0
    (fun p _ => retrieve_new hash n p.1 hn) hd
  refine ⟨t, hrun, ?_⟩
  have hz : (MyHashTable.new n : MyHashTable K V).numElements = 0 := rfl
  rw [hz, Nat.zero_add, Nat.mod_eq_of_lt hN] at hcount
  exact hcount

/-- Witness of C7: keys 1 and 5 select the same of four buckets. -/
theorem distinct_insert_count_witness :
    ∃ t, insertAll id (MyHashTable.new 4) [(1, "a"), (5, "b")] = Except.ok t ∧
      t.size = [(1, "a"), (5, "b")].length :=
  distinct_insert_count id 4 [(1, "a"), (5, "b")] (by decide) (by decide) two_lt_size_mod

/-! ## Zero buckets -/

/-- Counterexample to C8: the constructor called with 0 returns a table, which has no
bucket, and the first `insert`, `retrieve` or `remove` on it takes a modulus by zero. -/
theorem zero_bucket_not_rejected :
    (MyHashTable.new 0 : MyHashTable Nat String).bucketCount = 0 ∧
      insert id (MyHashTable.new 0 : MyHashTable Nat String) 1 "a" =
        Except.error Fault.modByZero ∧
      retrieve id (MyHashTable.new 0 : MyHashTable Nat String) 1 =
        Except.error Fault.modByZero ∧
      remove id (MyHashTable.new 0 : MyHashTable Nat String) 1 =
        Except.error Fault.modByZero :=
  ⟨rfl, rfl, rfl, rfl⟩

/-- C8, amended. The constructor does not check its argument: called with 0 it returns a
table with `bucketCount() == 0` and `size() == 0`, and on that table each of `insert`,
`retrieve` and `remove` takes a modulus by zero, for every hash function, key and value. -/
theorem zero_bucket_faults_at_first_use (hash : K → Nat) (k : K) (v : V) :
    (MyHashTable.new 0 : MyHashTable K V).bucketCount = 0 ∧
      (MyHashTable.new 0 : MyHashTable K V).size = 0 ∧
      insert hash (MyHashTable.new 0) k v = Except.error Fault.modByZero ∧
      retrieve hash (MyHashTable.new 0 : MyHashTable K V) k = Except.error Fault.modByZero ∧
      remove hash (MyHashTable.new 0 : MyHashTable K V) k = Except.error Fault.modByZero :=
  ⟨rfl, rfl, rfl, rfl, rfl⟩

/-! ## Frame properties -/

/-- C9. On a table with at least one bucket, for keys `k1 ≠ k2`, neither `insert(k1, v)`
nor `remove(k1)` changes what `retrieve(k2)` returns, also when both keys select the same
bucket. With 4 buckets and the identity hash: after `insert(1, "a")`, `insert(5, "b")`,
`retrieve(1)` is "a", `retrieve(5)` is "b" and `size()` is 2; then `remove(1)` returns
true, `size()` is 1, `retrieve(1)` is empty and `retrieve(5)` is still "b". -/
theorem colliding_keys_independent (hash : K → Nat) (t : MyHashTable K V) (k1 k2 : K) (v : V)
    (h : 1 ≤ t.bucketCount) (hne : k1 ≠ k2) :
    (∃ t', insert hash t k1 v = Except.ok t' ∧ retrieve hash t' k2 = retrieve hash t k2) ∧
    (∃ r t', remove hash t k1 = Except.ok (r, t') ∧
      retrieve hash t' k2 = retrieve hash t k2) ∧
    (∃ ta tb tc : MyHashTable Nat String,
      insert id (MyHashTable.new 4) 1 "a" = Except.ok ta ∧
      insert id ta 5 "b" = Except.ok tb ∧
      retrieve id tb 1 = Except.ok (some "a") ∧ retrieve id tb 5 = Except.ok (some "b") ∧
      tb.size = 2 ∧
      remove id tb 1 = Except.ok (true, tc) ∧ tc.size = 1 ∧
      retrieve id tc 1 = Except.ok none ∧ retrieve id tc 5 = Except.ok (some "b")) := by
  have h1 : 1 ≤ t.table.length := h
  refine ⟨?_, ?_, ?_⟩
  · obtain ⟨t', hins, -, -⟩ := insert_frame hash t k1 v h1
    exact ⟨t', hins, retrieve_insert_ne hash t t' k1 k2 v h1 hne hins⟩
  · obtain ⟨r, t', hrem, -, -⟩ := remove_frame hash t k1 h1
    exact ⟨r, t', hrem, retrieve_remove_ne hash t t' k1 k2 r h1 hne hrem⟩
  · exact ⟨_, _, _, rfl, rfl, rfl, rfl, rfl, rfl, rfl, rfl, rfl⟩

/-- Witness of C9: keys 1 and 5 select the same bucket of the example table. -/
theorem colliding_keys_independent_witness :
    (∃ t', insert id exampleTable 1 "a" = Except.ok t' ∧
      retrieve id t' 5 = retrieve id exampleTable 5) ∧
    (∃ r t', remove id exampleTable 1 = Except.ok (r, t') ∧
      retrieve id t' 5 = retrieve id exampleTable 5) :=
  ⟨(colliding_keys_independent id exampleTable 1 5 "a" (by decide) (by decide)).1,
   (colliding_keys_independent id exampleTable 1 5 "a" (by decide) (by decide)).2.1⟩

/-- C10. On a table with at least one bucket, `insert(k1, v)` and `remove(k1)` leave the
number of buckets and every bucket whose index differs from `hash(k1) mod bucket_count`
exactly as they were: only the bucket at that index can change. -/
theorem bucket_independence (hash : K → Nat) (t : MyHashTable K V) (k1 : K) (v : V)
    (h : 1 ≤ t.bucketCount) :
    (∃ t', insert hash t k1 v = Except.ok t' ∧ t'.bucketCount = t.bucketCount ∧
      ∀ j, j ≠ hash k1 % t.bucketCount → t'.table[j]? = t.table[j]?) ∧
    (∃ r t', remove hash t k1 = Except.ok (r, t') ∧ t'.bucketCount = t.bucketCount ∧
      ∀ j, j ≠ hash k1 % t.bucketCount → t'.table[j]? = t.table[j]?) :=
  ⟨insert_frame hash t k1 v h, remove_frame hash t k1 h⟩

/-- Witness of C10 on the example table. -/
theorem bucket_independence_witness :
    (∃ t', insert id exampleTable 9 "c" = Except.ok t' ∧
      t'.bucketCount = exampleTable.bucketCount ∧
      ∀ j, j ≠ id 9 % exampleTable.bucketCount → t'.table[j]? = exampleTable.table[j]?) ∧
    (∃ r t', remove id exampleTable 9 = Except.ok (r, t') ∧
      t'.bucketCount = exampleTable.bucketCount ∧
      ∀ j, j ≠ id 9 % exampleTable.bucketCount → t'.table[j]? = exampleTable.table[j]?) :=
  bucket_independence id exampleTable 9 "c" (by decide)

/-! ## Construction and the bucket count -/

/-- C11. For every `n ≥ 1`, the table constructed with bucket count `n` has
`bucketCount() == n` and `size() == 0`, each of its buckets is empty and `retrieve(k)` is
empty for every key; the constructor called without an argument is the constructor called
with 101. -/
theorem construction (hash : K → Nat) (n : Nat) (k : K) (hn : 1 ≤ n) :
    (MyHashTable.new n : MyHashTable K V).bucketCount = n ∧
      (MyHashTable.new n : MyHashTable K V).size = 0 ∧
      (∀ b ∈ (MyHashTable.new n : MyHashTable K V).table, b = []) ∧
      (∀ i, i < n → (MyHashTable.new n : MyHashTable K V).table[i]? = some []) ∧
      retrieve hash (MyHashTable.new n : MyHashTable K V) k = Except.ok none ∧
      (MyHashTable.newDefault : MyHashTable K V) = MyHashTable.new 101 ∧
      (MyHashTable.newDefault : MyHashTable K V).bucketCount = 101 := by
  refine ⟨List.length_replicate _ _, rfl, ?_, ?_, retrieve_new hash n k hn, rfl, ?_⟩
  · intro b hb
    have hmem : b ∈ List.replicate n ([] : List (KeyValue K V)) := hb
    exact (List.mem_replicate.mp hmem).2
  · intro i hi
    show (List.replicate n ([] : List (KeyValue K V)))[i]? = some []
    rw [List.getElem?_replicate, if_pos hi]
  · exact List.length_replicate _ _

/-- Witness of C11 with 4 buckets. -/
theorem construction_witness :
    (MyHashTable.new 4 : MyHashTable Nat String).bucketCount = 4 ∧
      (MyHashTable.new 4 : MyHashTable Nat String).size = 0 ∧
      (∀ b ∈ (MyHashTable.new 4 : MyHashTable Nat String).table, b = []) ∧
      (∀ i, i < 4 → (MyHashTable.new 4 : MyHashTable Nat String).table[i]? = some []) ∧
      retrieve id (MyHashTable.new 4 : MyHashTable Nat String) 7 = Except.ok none ∧
      (MyHashTable.newDefault : MyHashTable Nat String) = MyHashTable.new 101 ∧
      (MyHashTable.newDefault : MyHashTable Nat String).bucketCount = 101 :=
  construction id 4 7 (by decide)

/-- C12. On a table with at least one bucket, `insert` and `remove` return a table with the
same `bucketCount()`, `retrieve` returns without giving a new table, and so does every
finite sequence of `insert` and `remove` calls, however many entries it adds; run from a
table constructed with bucket count `n`, the sequence ends with `bucketCount() == n`. -/
theorem bucket_count_immutable (hash : K → Nat) (t : MyHashTable K V) (k : K) (v : V)
    (h : 1 ≤ t.bucketCount) :
    (∃ t', insert hash t k v = Except.ok t' ∧ t'.bucketCount = t.bucketCount) ∧
      (∃ r, retrieve hash t k = Except.ok r) ∧
      (∃ r t', remove hash t k = Except.ok (r, t') ∧ t'.bucketCount = t.bucketCount) ∧
      (∀ ops, ∃ t', applyOps hash t ops = Except.ok t' ∧ t'.bucketCount = t.bucketCount) ∧
      (∀ n ops, 1 ≤ n →
        ∃ t' : MyHashTable K V, applyOps hash (MyHashTable.new n) ops = Except.ok t' ∧
          t'.bucketCount = n) := by
  have h1 : 1 ≤ t.table.length := h
  refine ⟨?_, ?_, ?_, fun ops => length_applyOps hash ops t h1, ?_⟩
  · obtain ⟨t', hins, hlen, -⟩ := insert_frame hash t k v h1
    exact ⟨t', hins, hlen⟩
  · obtain ⟨b, hb⟩ := exists_bucket t.table (hash k) h1
    exact ⟨_, retrieve_eq hash t k b hb⟩
  · obtain ⟨r, t', hrem, hlen, -⟩ := remove_frame hash t k h1
    exact ⟨r, t', hrem, hlen⟩
  · intro n ops hn
    have hlen : (MyHashTable.new n : MyHashTable K V).table.length = n :=
      List.length_replicate _ _
    obtain ⟨t', hrun, hl⟩ := length_applyOps hash ops (MyHashTable.new n : MyHashTable K V)
      (by rw [hlen]; exact hn)
    exact ⟨t', hrun, by rw [← hlen]; exact hl⟩

/-- Witness of C12 on the example table. -/
theorem bucket_count_immutable_witness :
    (∃ t', insert id exampleTable 1 "a" = Except.ok t' ∧
      t'.bucketCount = exampleTable.bucketCount) ∧
      (∃ r, retrieve id exampleTable 1 = Except.ok r) ∧
      (∃ r t', remove id exampleTable 1 = Except.ok (r, t') ∧
        t'.bucketCount = exampleTable.bucketCount) ∧
      (∀ ops, ∃ t', applyOps id exampleTable ops = Except.ok t' ∧
        t'.bucketCount = exampleTable.bucketCount) ∧
      (∀ n ops, 1 ≤ n →
        ∃ t' : MyHashTable Nat String, applyOps id (MyHashTable.new n) ops = Except.ok t' ∧
          t'.bucketCount = n) :=
  bucket_count_immutable id exampleTable 1 "a" (by decide)

/-! ## Retrieve -/

/-- C13. In every reachable state `retrieve(k)` returns, without error; its result is
present exactly when some bucket of the table holds an entry with key `k`, and empty
exactly when no bucket does; it is `v` exactly when some bucket holds the entry
`(k, v)`. -/
theorem retrieve_presence (hash : K → Nat) (t : MyHashTable K V) (k : K)
    (hR : Reachable hash t) :
    ∃ r, retrieve hash t k = Except.ok r ∧
      (r.isSome = true ↔ ∃ b ∈ t.table, ∃ kv ∈ b, kv.key = k) ∧
      (r = none ↔ ∀ b ∈ t.table, ∀ kv ∈ b, kv.key ≠ k) ∧
      (∀ v, r = some v ↔ ∃ b ∈ t.table, KeyValue.mk k v ∈ b) := by
  have hwf := WF_of_reachable hash t hR
  obtain ⟨b, hb⟩ := exists_bucket t.table (hash k) hwf.pos
  have hiff := fun v => findValue_iff_mem hash t k v b hwf hb
  have hsome : (findValue k b).isSome = true ↔ ∃ c ∈ t.table, ∃ kv ∈ c, kv.key = k := by
    constructor
    · intro h
      obtain ⟨v, hv⟩ := Option.isSome_iff_exists.mp h
      obtain ⟨c, hc, hmem⟩ := (hiff v).mp hv
      exact ⟨c, hc, _, hmem, rfl⟩
    · rintro ⟨c, hc, kv, hkv, hk⟩
      have hmem : KeyValue.mk k kv.value ∈ c := by
        cases kv with
        | mk key value =>
          simp only at hk
          subst hk
          exact hkv
      rw [(hiff kv.value).mpr ⟨c, hc, hmem⟩]
      rfl
  refine ⟨findValue k b, retrieve_eq hash t k b hb, hsome, ?_, hiff⟩
  constructor
  · intro hnone c hc kv hkv hk
    have := hsome.mpr ⟨c, hc, kv, hkv, hk⟩
    rw [hnone] at this
    exact Bool.noConfusion this
  · intro hall
    cases hf : findValue k b with
    | none => rfl
    | some x =>
      obtain ⟨c, hc, kv, hkv, hk⟩ := hsome.mp (by rw [hf]; rfl)
      exact absurd hk (hall c hc kv hkv)

/-- Witness of C13 on the table reached by `insert(5, "b")`. -/
theorem retrieve_presence_witness :
    Reachable id exampleTable ∧
      ∃ r, retrieve id exampleTable 5 = Except.ok r ∧
        (r.isSome = true ↔ ∃ b ∈ exampleTable.table, ∃ kv ∈ b, kv.key = 5) ∧
        (r = none ↔ ∀ b ∈ exampleTable.table, ∀ kv ∈ b, kv.key ≠ 5) ∧
        (∀ v, r = some v ↔ ∃ b ∈ exampleTable.table, KeyValue.mk 5 v ∈ b) :=
  ⟨exampleTable_reachable, retrieve_presence id exampleTable 5 exampleTable_reachable⟩

/-! ## Remove and insert on the bucket they scan -/

/-- C14. On a table with at least one bucket, when the bucket `b` at index
`hash(k) mod bucket_count` holds an entry with key `k`, `remove(k)` returns true; `b`
splits as `pre ++ kv :: post` with `kv` the first entry whose key is `k`, and the new bucket
is `pre ++ post`, one entry shorter; `size()` is decremented as a `size_t`, which is the
previous size minus 1 whenever that size is at least 1, as it is in every reachable state
whose number of entries is a value of `size_t`. -/
theorem remove_hit_effect (hash : K → Nat) (t : MyHashTable K V) (k : K)
    (b : List (KeyValue K V)) (h : 1 ≤ t.bucketCount)
    (hb : t.table[hash k % t.bucketCount]? = some b) (hk : ∃ kv ∈ b, kv.key = k) :
    ∃ t' pre kv post, remove hash t k = Except.ok (true, t') ∧
      b = pre ++ kv :: post ∧ kv.key = k ∧ (∀ x ∈ pre, x.key ≠ k) ∧
      t'.table = t.table.set (hash k % t.bucketCount) (pre ++ post) ∧
      t'.table[hash k % t.bucketCount]? = some (pre ++ post) ∧
      (pre ++ post).length + 1 = b.length ∧
      t'.size = (t.size + SIZE_MOD - 1) % SIZE_MOD ∧
      (1 ≤ t.size → t.size < SIZE_MOD → t'.size + 1 = t.size) ∧
      (Reachable hash t → totalEntries t < SIZE_MOD → t'.size + 1 = t.size) := by
  have h1 : 1 ≤ t.table.length := h
  have hb1 : t.table[hash k % t.table.length]? = some b := hb
  have hne : eraseScan k b ≠ none := by
    intro hnone
    obtain ⟨kv, hkv, hkk⟩ := hk
    exact (eraseScan_eq_none_iff k b).mp hnone kv hkv hkk
  obtain ⟨b1, hu⟩ := Option.ne_none_iff_exists'.mp hne
  obtain ⟨pre, kv, post, hsplit, hkey, hpre, hb1eq⟩ := eraseScan_split k b b1 hu
  subst hb1eq
  have hrem := remove_hit hash t k b (pre ++ post) hb1 hu
  refine ⟨_, pre, kv, post, hrem, hsplit, hkey, hpre, rfl, ?_, ?_, rfl, ?_, ?_⟩
  · exact List.getElem?_set_self (Nat.mod_lt _ h1)
  · rw [hsplit]
    simp only [List.length_append, List.length_cons]
    omega
  · intro hpos hlt
    have hpos1 : 1 ≤ t.numElements := hpos
    have hlt1 : t.numElements < SIZE_MOD := hlt
    show (t.numElements + SIZE_MOD - 1) % SIZE_MOD + 1 = t.numElements
    rw [size_mod_eq] at hlt1 ⊢
    omega
  · intro hR hfit
    exact (remove_size hash t _ k (WF_of_reachable hash t hR) hfit hrem).2

/-- Witness of C14: key 5 has its entry in bucket 1 of the example table. -/
theorem remove_hit_effect_witness :
    1 ≤ exampleTable.bucketCount ∧
      exampleTable.table[id 5 % exampleTable.bucketCount]? = some [KeyValue.mk 5 "b"] ∧
      (∃ kv ∈ [KeyValue.mk 5 "b"], kv.key = 5) ∧
      ∃ t' pre kv post, remove id exampleTable 5 = Except.ok (true, t') ∧
        [KeyValue.mk 5 "b"] = pre ++ kv :: post ∧ kv.key = 5 ∧ (∀ x ∈ pre, x.key ≠ 5) ∧
        t'.table = exampleTable.table.set (id 5 % exampleTable.bucketCount) (pre ++ post) ∧
        t'.table[id 5 % exampleTable.bucketCount]? = some (pre ++ post) ∧
        (pre ++ post).length + 1 = [KeyValue.mk 5 "b"].length ∧
        t'.size = (exampleTable.size + SIZE_MOD - 1) % SIZE_MOD ∧
        (1 ≤ exampleTable.size → exampleTable.size < SIZE_MOD →
          t'.size + 1 = exampleTable.size) ∧
        (Reachable id exampleTable → totalEntries exampleTable < SIZE_MOD →
          t'.size + 1 = exampleTable.size) :=
  ⟨by decide, rfl, ⟨KeyValue.mk 5 "b", List.mem_singleton.mpr rfl, rfl⟩,
    remove_hit_effect id exampleTable 5 [KeyValue.mk 5 "b"] (by decide) rfl
      ⟨KeyValue.mk 5 "b", List.mem_singleton.mpr rfl, rfl⟩⟩

/-- C15. On a table with at least one bucket, with `b` the bucket at index
`hash(k) mod bucket_count`: when `b` has no entry with key `k`, `insert(k, v)` makes that
bucket `b` followed by the entry `(k, v)` and increments `size()` as a `size_t`, which is
the previous size plus 1 whenever that is a value of `size_t`; when `b` has an entry with
key `k`, `b` splits as `pre ++ kv :: post` with `kv` the first entry whose key is `k`, the
new bucket is `pre ++ (k, v) :: post`, of the same length and with the same sequence of
keys, and `size()` is unchanged. -/
theorem insert_placement (hash : K → Nat) (t : MyHashTable K V) (k : K) (v : V)
    (b : List (KeyValue K V)) (h : 1 ≤ t.bucketCount)
    (hb : t.table[hash k % t.bucketCount]? = some b) :
    ((∀ kv ∈ b, kv.key ≠ k) →
      ∃ t', insert hash t k v = Except.ok t' ∧
        t'.table = t.table.set (hash k % t.bucketCount) (b ++ [KeyValue.mk k v]) ∧
        t'.table[hash k % t.bucketCount]? = some (b ++ [KeyValue.mk k v]) ∧
        t'.size = (t.size + 1) % SIZE_MOD ∧
        (t.size + 1 < SIZE_MOD → t'.size = t.size + 1)) ∧
    ((∃ kv ∈ b, kv.key = k) →
      ∃ t' pre kv post, insert hash t k v = Except.ok t' ∧
        b = pre ++ kv :: post ∧ kv.key = k ∧ (∀ x ∈ pre, x.key ≠ k) ∧
        t'.table = t.table.set (hash k % t.bucketCount) (pre ++ KeyValue.mk k v :: post) ∧
        t'.table[hash k % t.bucketCount]? = some (pre ++ KeyValue.mk k v :: post) ∧
        (pre ++ KeyValue.mk k v :: post).length = b.length ∧
        (pre ++ KeyValue.mk k v :: post).map KeyValue.key = b.map KeyValue.key ∧
        t'.size = t.size) := by
  have h1 : 1 ≤ t.table.length := h
  have hb1 : t.table[hash k % t.table.length]? = some b := hb
  have hlt : hash k % t.table.length < t.table.length := Nat.mod_lt _ h1
  constructor
  · intro habs
    have hu := (updateScan_eq_none_iff k v b).mpr habs
    refine ⟨_, insert_miss hash t k v b hb1 hu, rfl, List.getElem?_set_self hlt, rfl, ?_⟩
    intro hfit
    have hfit1 : t.numElements + 1 < SIZE_MOD := hfit
    show (t.numElements + 1) % SIZE_MOD = t.numElements + 1
    exact Nat.mod_eq_of_lt hfit1
  · intro hk
    have hne : updateScan k v b ≠ none := by
      intro hnone
      obtain ⟨kv, hkv, hkk⟩ := hk
      exact (updateScan_eq_none_iff k v b).mp hnone kv hkv hkk
    obtain ⟨b1, hu⟩ := Option.ne_none_iff_exists'.mp hne
    obtain ⟨pre, kv, post, hsplit, hkey, hpre, hb1eq⟩ := updateScan_split k v b b1 hu
    subst hb1eq
    refine ⟨_, pre, kv, post, insert_hit hash t k v b _ hb1 hu, hsplit, hkey, hpre, rfl,
      List.getElem?_set_self hlt, length_updateScan k v b _ hu, keys_updateScan k v b _ hu, rfl⟩

/-- Witness of C15 on the example table: key 1 has no entry in bucket 1, key 5 has one. -/
theorem insert_placement_witness :
    (∃ t', insert id exampleTable 1 "a" = Except.ok t' ∧
      t'.table = exampleTable.table.set (id 1 % exampleTable.bucketCount)
        ([KeyValue.mk 5 "b"] ++ [KeyValue.mk 1 "a"]) ∧
      t'.table[id 1 % exampleTable.bucketCount]? =
        some ([KeyValue.mk 5 "b"] ++ [KeyValue.mk 1 "a"]) ∧
      t'.size = (exampleTable.size + 1) % SIZE_MOD ∧
      (exampleTable.size + 1 < SIZE_MOD → t'.size = exampleTable.size + 1)) ∧
    (∃ t' pre kv post, insert id exampleTable 5 "c" = Except.ok t' ∧
      [KeyValue.mk 5 "b"] = pre ++ kv :: post ∧ kv.key = 5 ∧ (∀ x ∈ pre, x.key ≠ 5) ∧
      t'.table = exampleTable.table.set (id 5 % exampleTable.bucketCount)
        (pre ++ KeyValue.mk 5 "c" :: post) ∧
      t'.table[id 5 % exampleTable.bucketCount]? = some (pre ++ KeyValue.mk 5 "c" :: post) ∧
      (pre ++ KeyValue.mk 5 "c" :: post).length = [KeyValue.mk 5 "b"].length ∧
      (pre ++ KeyValue.mk 5 "c" :: post).map KeyValue.key =
        [KeyValue.mk 5 "b"].map KeyValue.key ∧
      t'.size = exampleTable.size) :=
  ⟨(insert_placement id exampleTable 1 "a" [KeyValue.mk 5 "b"] (by decide) rfl).1
      (by decide),
    (insert_placement id exampleTable 5 "c" [KeyValue.mk 5 "b"] (by decide) rfl).2
      ⟨KeyValue.mk 5 "b", List.mem_singleton.mpr rfl, rfl⟩⟩

/-- C16. In every reachable state whose number of entries is a value of `size_t`, when
`remove(k)` finds an entry, the count before the call is at least 1, so the `size_t`
decrement does not wrap around and `size()` after the call is the previous size minus
1. -/
theorem size_never_negative (hash : K → Nat) (t t' : MyHashTable K V) (k : K)
    (hR : Reachable hash t) (hfit : totalEntries t < SIZE_MOD)
    (hrem : remove hash t k = Except.ok (true, t')) :
    1 ≤ t.size ∧ t'.size + 1 = t.size ∧ t'.size = t.size - 1 := by
  obtain ⟨hpos, hdec⟩ := remove_size hash t t' k (WF_of_reachable hash t hR) hfit hrem
  have hpos1 : 1 ≤ t.size := hpos
  have hdec1 : t'.size + 1 = t.size := hdec
  exact ⟨hpos1, hdec1, by omega⟩

/-- Witness of C16: `remove(5)` on the table reached by `insert(5, "b")`. -/
theorem size_never_negative_witness :
    Reachable id exampleTable ∧ totalEntries exampleTable < SIZE_MOD ∧
      remove id exampleTable 5 = Except.ok (true, MyHashTable.mk [[], [], [], []] 0) ∧
      1 ≤ exampleTable.size ∧
      (MyHashTable.mk [[], [], [], []] 0 : MyHashTable Nat String).size + 1 =
        exampleTable.size ∧
      (MyHashTable.mk [[], [], [], []] 0 : MyHashTable Nat String).size =
        exampleTable.size - 1 :=
  ⟨exampleTable_reachable, exampleTable_fits, rfl,
    size_never_negative id exampleTable (MyHashTable.mk [[], [], [], []] 0) 5
      exampleTable_reachable exampleTable_fits rfl⟩

/-! ## Totality -/

/-- C17. On a table with at least one bucket, for every key the index
`hash(k) mod bucket_count` is computed without a modulus by zero and is less than the number
of buckets, the bucket lookup at that index is in bounds, and each of `insert`, `retrieve`
and `remove` returns a result and no fault. -/
theorem operations_total (hash : K → Nat) (t : MyHashTable K V) (k : K) (v : V)
    (h : 1 ≤ t.bucketCount) :
    hash k % t.bucketCount < t.bucketCount ∧
      getBucketIndex hash t k = Except.ok (hash k % t.bucketCount) ∧
      (∃ b, bucketAt t (hash k % t.bucketCount) = Except.ok b) ∧
      (∃ t', insert hash t k v = Except.ok t') ∧
      (∃ r, retrieve hash t k = Except.ok r) ∧
      (∃ r t', remove hash t k = Except.ok (r, t')) := by
  have h1 : 1 ≤ t.table.length := h
  have hlen : t.table.length ≠ 0 := Nat.not_eq_zero_of_lt h1
  obtain ⟨b, hb⟩ := exists_bucket t.table (hash k) h1
  refine ⟨Nat.mod_lt _ h1, ?_, ⟨b, ?_⟩, ?_, ⟨_, retrieve_eq hash t k b hb⟩, ?_⟩
  · simp [getBucketIndex, hlen]
  · simp [bucketAt, hb]
  · obtain ⟨t', hins, -, -⟩ := insert_frame hash t k v h1
    exact ⟨t', hins⟩
  · obtain ⟨r, t', hrem, -, -⟩ := remove_frame hash t k h1
    exact ⟨r, t', hrem⟩

/-- Witness of C17 on the example table. -/
theorem operations_total_witness :
    id 9 % exampleTable.bucketCount < exampleTable.bucketCount ∧
      getBucketIndex id exampleTable 9 = Except.ok (id 9 % exampleTable.bucketCount) ∧
      (∃ b, bucketAt exampleTable (id 9 % exampleTable.bucketCount) = Except.ok b) ∧
      (∃ t', insert id exampleTable 9 "c" = Except.ok t') ∧
      (∃ r, retrieve id exampleTable 9 = Except.ok r) ∧
      (∃ r t', remove id exampleTable 9 = Except.ok (r, t')) :=
  operations_total id exampleTable 9 "c" (by decide)

/-! ## Refinement of a finite map -/

/-- C18. For every bucket count `n ≥ 1`, every hash function and every finite sequence of
`insert` and `remove` calls split at any step into `pre` and `post`: the calls of `pre` run
to the end on a freshly constructed table and on the empty reference map, the rest of the
sequence continues from there on both sides, and in the state after `pre` `retrieve(k)` is
the reference lookup of `k` for every key, `size()` is the number of keys of the reference
map taken as a `size_t`, and `remove(k)` returns whether `k` is in the reference map. -/
theorem refines_finite_map (hash : K → Nat) (n : Nat) (pre post : List (Op K V))
    (hn : 1 ≤ n) :
    ∃ t, applyOps hash (MyHashTable.new n) pre = Except.ok t ∧
      applyOps hash (MyHashTable.new n) (pre ++ post) = applyOps hash t post ∧
      refRun [] (pre ++ post) = refRun (refRun [] pre) post ∧
      ((refRun ([] : List (K × V)) pre).map Prod.fst).Nodup ∧
      (∀ k, retrieve hash t k = Except.ok (refLookup (refRun [] pre) k)) ∧
      t.size = refSize (refRun [] pre) % SIZE_MOD ∧
      (refSize (refRun [] pre) < SIZE_MOD → t.size = refSize (refRun [] pre)) ∧
      (∀ k, ∃ t', remove hash t k = Except.ok (refContains (refRun [] pre) k, t')) := by
  obtain ⟨t, hrun, hs⟩ := Sim_applyOps hash pre (MyHashTable.new n) [] (Sim_new hash n hn)
  have hsize : t.numElements = refSize (refRun [] pre) % SIZE_MOD := by
    rw [hs.wf.count, hs.entries]
  refine ⟨t, hrun, applyOps_append hash pre post _ t hrun, refRun_append pre post [],
    hs.keys, hs.lookup, hsize, ?_, ?_⟩
  · intro hfit
    show t.numElements = refSize (refRun [] pre)
    rw [hsize, Nat.mod_eq_of_lt hfit]
  · intro k
    obtain ⟨res, t', hrem, -, -⟩ := remove_frame hash t k hs.wf.pos
    obtain ⟨r, hr, hres, -, -⟩ := remove_entries hash t t' k res hs.wf hrem
    have hrm : r = refLookup (refRun [] pre) k := by
      have := hs.lookup k
      rw [hr] at this
      injection this
    refine ⟨t', ?_⟩
    rw [hrem, hres, hrm]
    rfl

/-- Witness of C18: two colliding inserts and a remove on a table of four buckets. -/
theorem refines_finite_map_witness :
    ∃ t, applyOps id (MyHashTable.new 4) [Op.insert 1 "a", Op.insert 5 "b"] = Except.ok t ∧
      applyOps id (MyHashTable.new 4) ([Op.insert 1 "a", Op.insert 5 "b"] ++ [Op.remove 1]) =
        applyOps id t [Op.remove 1] ∧
      refRun [] ([Op.insert 1 "a", Op.insert 5 "b"] ++ [Op.remove 1]) =
        refRun (refRun [] [Op.insert 1 "a", Op.insert 5 "b"]) [Op.remove 1] ∧
      ((refRun ([] : List (Nat × String)) [Op.insert 1 "a", Op.insert 5 "b"]).map
        Prod.fst).Nodup ∧
      (∀ k, retrieve id t k =
        Except.ok (refLookup (refRun [] [Op.insert 1 "a", Op.insert 5 "b"]) k)) ∧
      t.size = refSize (refRun [] [Op.insert 1 "a", Op.insert 5 "b"]) % SIZE_MOD ∧
      (refSize (refRun [] [Op.insert 1 "a", Op.insert 5 "b"]) < SIZE_MOD →
        t.size = refSize (refRun [] [Op.insert 1 "a", Op.insert 5 "b"])) ∧
      (∀ k, ∃ t', remove id t k =
        Except.ok (refContains (refRun [] [Op.insert 1 "a", Op.insert 5 "b"]) k, t')) :=
  refines_finite_map id 4 [Op.insert 1 "a", Op.insert 5 "b"] [Op.remove 1] (by decide)

/-! ## Placement of entries, idempotence of insert -/

/-- C19. In every reachable state, every entry stored in bucket `i` has a key `k` with
`hash(k) mod bucket_count == i`; so every entry is in the bucket its key selects, and
`retrieve(k)`, which scans that bucket only, finds a value whenever any bucket holds an
entry with key `k`. -/
theorem entry_placement (hash : K → Nat) (t : MyHashTable K V) (hR : Reachable hash t) :
    (∀ i b, t.table[i]? = some b → ∀ kv ∈ b, hash kv.key % t.bucketCount = i) ∧
      (∀ b ∈ t.table, ∀ kv ∈ b, t.table[hash kv.key % t.bucketCount]? = some b) ∧
      (∀ k, (∃ b ∈ t.table, ∃ kv ∈ b, kv.key = k) →
        ∃ v, retrieve hash t k = Except.ok (some v)) := by
  have hwf := WF_of_reachable hash t hR
  have hsel : ∀ b ∈ t.table, ∀ kv ∈ b, t.table[hash kv.key % t.table.length]? = some b := by
    intro b hb kv hkv
    obtain ⟨j, hj⟩ := List.mem_iff_getElem?.mp hb
    rw [hwf.placed j b hj kv hkv]
    exact hj
  refine ⟨hwf.placed, hsel, ?_⟩
  rintro k ⟨b, hb, kv, hkv, hk⟩
  have hbk : t.table[hash k % t.table.length]? = some b := by
    rw [← hk]
    exact hsel b hb kv hkv
  rw [retrieve_eq hash t k b hbk]
  cases hf : findValue k b with
  | some v => exact ⟨v, rfl⟩
  | none => exact absurd hk ((findValue_eq_none_iff k b).mp hf kv hkv)

/-- Witness of C19 on the table reached by `insert(5, "b")`. -/
theorem entry_placement_witness :
    Reachable id exampleTable ∧
      (∀ i b, exampleTable.table[i]? = some b →
        ∀ kv ∈ b, id kv.key % exampleTable.bucketCount = i) ∧
      (∀ b ∈ exampleTable.table, ∀ kv ∈ b,
        exampleTable.table[id kv.key % exampleTable.bucketCount]? = some b) ∧
      (∀ k, (∃ b ∈ exampleTable.table, ∃ kv ∈ b, kv.key = k) →
        ∃ v, retrieve id exampleTable k = Except.ok (some v)) :=
  ⟨exampleTable_reachable, entry_placement id exampleTable exampleTable_reachable⟩

/-- C20. On a table with at least one bucket, `insert(k, v)` performed on the table that
`insert(k, v)` returned gives that same table again: the same buckets with the same
entries in the same order, and the same element count. -/
theorem insert_idempotent (hash : K → Nat) (t : MyHashTable K V) (k : K) (v : V)
    (h : 1 ≤ t.bucketCount) :
    ∃ t1, insert hash t k v = Except.ok t1 ∧ insert hash t1 k v = Except.ok t1 := by
  have h1 : 1 ≤ t.table.length := h
  obtain ⟨b, b1, n1, hb, hins, hfv, -⟩ := insert_result hash t k v h1
  have hlen : (t.table.set (hash k % t.table.length) b1).length = t.table.length :=
    List.length_set _ _ _
  have hget : (MyHashTable.mk (t.table.set (hash k % t.table.length) b1) n1).table[
      hash k % (MyHashTable.mk (t.table.set (hash k % t.table.length) b1) n1).table.length]? =
      some b1 := by
    simp [List.getElem?_set_self, Nat.mod_lt _ h1]
  refine ⟨_, hins, ?_⟩
  rw [insert_hit hash _ k v b1 b1 hget (updateScan_same k v b1 hfv)]
  show Except.ok (MyHashTable.mk
      ((t.table.set (hash k % t.table.length) b1).set
        (hash k % (t.table.set (hash k % t.table.length) b1).length) b1) n1) =
    Except.ok (MyHashTable.mk (t.table.set (hash k % t.table.length) b1) n1)
  rw [hlen, List.set_set]

/-- Witness of C20: the key is absent before the first insert. -/
theorem insert_idempotent_witness :
    ∃ t1, insert id exampleTable 1 "a" = Except.ok t1 ∧ insert id t1 1 "a" = Except.ok t1 :=
  insert_idempotent id exampleTable 1 "a" (by decide)

end HashTable
